import Mathlib

/-!
# A shallow embedding of `RingBuf<T>` (RingBuf.h)

This file embeds the mirrored ring buffer of the repository (RingBuf.h /
RingBuf.cpp) in Lean and proves properties of its operations.

Modelling decisions, all taken from the source:
* The element type `T` is modelled as `Nat` (the code's zero element `0`
  is `(0 : Nat)`; `nilBuf` is `{0, 0}`).
* The data members `buffer`, `begin`, `end`, `len`, `usable`, `preserve`
  become a structure.  The pointers `begin`/`end` become *signed* offsets
  (`Int`) from `buffer`, so that pointer arithmetic that leaves the
  allocation (as `end = begin + usable - 1` does when `usable == 0`) is
  represented faithfully instead of being clamped.
* The three possible states of the `buffer` pointer are an enumeration
  `BufKind`: a live allocation (`real`), the static `nilBuf` sentinel
  installed by `setFail` (`nil`), and `nullptr` as left behind by a move
  (`null`).
* Memory accesses are guarded: a store or load outside `[0, buffer.size)`
  returns `none`.  This makes undefined behaviour of the C++ code (an
  out-of-bounds `*end = c` or `memcpy`) visible as an `Option` error.
* `memcpy` becomes `wrList` (element-wise guarded stores), `memcpy` out of
  the buffer becomes `rdList`.
* The mutex (`LOCK_GUARD`) is compiled out on the reference platform and
  has no sequential semantics; it is not modelled.
* `push_back(const T*, size_t)` receives its source as a Lean list.  The
  `nullptr` check and the self-aliasing check (`data >= buffer && data <=
  buffer + len`) cannot fire for such an external, non-aliasing source;
  only the `size == 0` check remains observable.
* `uint16_t firstPart` in the bulk split copy is modelled with an explicit
  `% 65536`, faithful to the narrowing conversion in the source.
-/

/-- The three states of the `buffer` pointer of a `RingBuf`: a real
allocation, the static `nilBuf` sentinel (after `setFail`), or `nullptr`
(after being moved from). -/
inductive BufKind
  | real
  | nil
  | null
deriving Repr, DecidableEq

/-- Shallow embedding of `RingBuf<T>` with `T = Nat`.  `bgn`/`fin` are the
`begin`/`end` pointers as signed offsets from `buffer`. -/
structure RingBuf where
  kind : BufKind
  buffer : Array Nat
  bgn : Int
  fin : Int
  len : Nat
  usable : Nat
  preserve : Bool
deriving Repr, DecidableEq

/-- Read a cell of the storage, defaulting to 0 out of bounds (only ever
used at indices proved in bounds). -/
def aread (a : Array Nat) (i : Nat) : Nat := a.getD i 0

/-- Guarded single-element store at a pointer offset: storing outside the
allocation is an error (`none`), mirroring C++ undefined behaviour. -/
def wr (a : Array Nat) (i : Int) (v : Nat) : Option (Array Nat) :=
  if h : 0 ≤ i ∧ i.toNat < a.size then some (a.set ⟨i.toNat, h.2⟩ v) else none

/-- Guarded block store: `memcpy(buffer + i, src, ...)` element by element. -/
def wrList : Array Nat → Int → List Nat → Option (Array Nat)
  | a, _, [] => some a
  | a, i, v :: vs => do
    let a1 ← wr a i v
    wrList a1 (i + 1) vs

/-- Guarded single-element load at a pointer offset. -/
def rd (a : Array Nat) (i : Int) : Option Nat :=
  if 0 ≤ i ∧ i.toNat < a.size then some (aread a i.toNat) else none

/-- Guarded block load of `n` elements starting at offset `i`. -/
def rdList (a : Array Nat) (i : Int) : Nat → Option (List Nat)
  | 0 => some []
  | n + 1 => do
    let v ← rd a i
    let rest ← rdList a (i + 1) n
    some (v :: rest)

/-- `valid()`: `buffer && buffer != nilBuf`. -/
def RingBuf.valid (rb : RingBuf) : Bool := rb.kind == BufKind.real

/-- `size()`: `end - begin` (as the non-negative count it denotes in any
valid state). -/
def RingBuf.size (rb : RingBuf) : Nat := (rb.fin - rb.bgn).toNat

/-- `capacity()`: remaining usable room, 0 on an invalid buffer. -/
def RingBuf.capacity (rb : RingBuf) : Nat :=
  if rb.valid then rb.usable - rb.size else 0

/-- `empty()`. -/
def RingBuf.isEmpty (rb : RingBuf) : Bool := rb.size == 0 || !rb.valid

/-- `setFail()`: install the static `nilBuf` sentinel.  (`len` becomes
`2 * elementSize`; the `preserve` member is left at whatever value the
object had, so it is a parameter here.) -/
def setFail (p : Bool) : RingBuf :=
  { kind := .nil, buffer := #[0, 0], bgn := 0, fin := 0, len := 2, usable := 0, preserve := p }

/-- A freshly allocated array of `n` elements with arbitrary (junk)
contents, as `new T[n]` yields. -/
def mkBuf (n : Nat) (junk : Nat → Nat) : Array Nat := ((List.range n).map junk).toArray

/-- The constructor `RingBuf(size, preserve)` when allocation succeeds:
`len = size * 2`, `usable = size`, then `clear()`. -/
def mkRingBuf (sz : Nat) (p : Bool) (junk : Nat → Nat) : RingBuf :=
  { kind := .real, buffer := mkBuf (sz * 2) junk, bgn := 0, fin := 0,
    len := sz * 2, usable := sz, preserve := p }

/-- The constructor when allocation fails: `setFail()`. -/
def mkRingBufFail (p : Bool) : RingBuf := setFail p

/-- `clear()`: reset both cursors to the start of storage. -/
def RingBuf.clear (rb : RingBuf) : Bool × RingBuf :=
  if !rb.valid then (false, rb)
  else (true, { rb with bgn := 0, fin := 0 })

/-- `pop(numElements)`: remove the leading elements, wrapping the cursors
back by `usable` when `begin` crosses `buffer + usable`. -/
def RingBuf.pop (rb : RingBuf) (numElements : Nat) : Nat × RingBuf :=
  if !rb.valid then (0, rb)
  else if rb.size ≠ 0 then
    if rb.size ≤ numElements then
      (rb.size, (rb.clear).2)
    else
      let b := rb.bgn + (numElements : Int)
      if (rb.usable : Int) ≤ b then
        (numElements, { rb with bgn := b - rb.usable, fin := rb.fin - rb.usable })
      else
        (numElements, { rb with bgn := b })
  else (0, rb)

/-- The eviction step of `push_back(const T)` on a full buffer:
`begin++`, and on overflow `begin = buffer; end = begin + usable - 1`
(note the latter is `-1` when `usable == 0`). -/
def evictOne (rb : RingBuf) : RingBuf :=
  let b := rb.bgn + 1
  if (rb.usable : Int) ≤ b then { rb with bgn := 0, fin := (rb.usable : Int) - 1 }
  else { rb with bgn := b }

/-- The mirrored single-element write of `push_back(const T)`:
`*end = c`, the copy into the other half, then `end++`. -/
def pushWrite (rb : RingBuf) (c : Nat) : Option RingBuf := do
  let a1 ← wr rb.buffer rb.fin c
  let a2 ←
    if (rb.usable : Int) ≤ rb.fin then wr a1 (rb.fin - rb.usable) c
    else wr a1 (rb.fin + rb.usable) c
  some { rb with buffer := a2, fin := rb.fin + 1 }

/-- `push_back(const T c)`. -/
def RingBuf.push_back (rb : RingBuf) (c : Nat) : Option (Bool × RingBuf) :=
  if !rb.valid then some (false, rb)
  else if rb.capacity == 0 then
    if rb.preserve then some (false, rb)
    else (pushWrite (evictOne rb) c).map (fun r => (true, r))
  else (pushWrite rb c).map (fun r => (true, r))

/-- `uint16_t firstPart = len - (end - buffer + usable)`: the narrowing
to `uint16_t` is the explicit `% 65536`. -/
def firstPartOf (len finOff usable : Nat) : Nat := (len - (finOff + usable)) % 65536

/-- The mirrored block copy of `push_back(const T*, size_t)`: the primary
`memcpy(end, data, size)`, then the copy into the other half, split at
`buffer + len` when it would overrun. -/
def bulkWrite (rb : RingBuf) (src : List Nat) : Option RingBuf := do
  let a1 ← wrList rb.buffer rb.fin src
  let a2 ←
    if (rb.usable : Int) ≤ rb.fin then wrList a1 (rb.fin - rb.usable) src
    else if rb.fin + rb.usable + src.length ≤ (rb.len : Int) then
      wrList a1 (rb.fin + rb.usable) src
    else do
      let fp := firstPartOf rb.len rb.fin.toNat rb.usable
      let a ← wrList a1 (rb.fin + rb.usable) (src.take fp)
      wrList a 0 (src.drop fp)
  some { rb with buffer := a2, fin := rb.fin + src.length }

/-- `push_back(const T *data, size_t size)` with the source given as a
list (external to the buffer, so the `nullptr` and self-aliasing guards
reduce to the `size == 0` check). -/
def RingBuf.push_back_list (rb : RingBuf) (src : List Nat) : Option (Bool × RingBuf) :=
  if !rb.valid then some (false, rb)
  else if src.length == 0 then some (false, rb)
  else if rb.capacity < src.length then
    if rb.preserve then some (false, rb)
    else
      let s2 := if rb.usable < src.length then src.drop (src.length - rb.usable) else src
      let b := rb.bgn + ((s2.length - rb.capacity : Nat) : Int)
      let rb1 :=
        if (rb.usable : Int) ≤ b then { rb with bgn := b - rb.usable, fin := rb.fin - rb.usable }
        else { rb with bgn := b }
      (bulkWrite rb1 s2).map (fun r => (true, r))
  else (bulkWrite rb src).map (fun r => (true, r))

/-- The flat read of `data()[0 .. size())` that consumers perform, as a
guarded load: `none` would mean the occupied region is not one in-bounds
flat slice. -/
def RingBuf.dataSlice (rb : RingBuf) : Option (List Nat) := rdList rb.buffer rb.bgn rb.size

/-- The occupied region as a (total) list of values, for specification. -/
def RingBuf.occupied (rb : RingBuf) : List Nat :=
  (List.range rb.size).map (fun j => aread rb.buffer (rb.bgn.toNat + j))

/-- `operator[](index)`: the `index`-th occupied element or 0. -/
def RingBuf.readIndex (rb : RingBuf) (index : Nat) : Option Nat :=
  if !rb.valid then some 0
  else if index < rb.size then rd rb.buffer (rb.bgn + (index : Int))
  else some 0

/-- `safeCopy(target, len, move)`: the copied prefix, the returned count,
and the resulting buffer (`pop`ped when `move`). -/
def RingBuf.safeCopy (rb : RingBuf) (lenReq : Nat) (mv : Bool) :
    Option (List Nat × Nat × RingBuf) :=
  if !rb.valid then some ([], 0, rb)
  else
    let n := if rb.size < lenReq then rb.size else lenReq
    do
      let copied ← rdList rb.buffer rb.bgn n
      some (copied, n, if mv then (rb.pop n).2 else rb)

/-- The copy constructor: raw clone of a valid source (when the new
allocation succeeds), otherwise `setFail()`.  The `preserve` member is
uninitialised on the failure paths, hence the `junkPreserve` parameter. -/
def copyCtor (r : RingBuf) (allocOk : Bool) (junkPreserve : Bool) : RingBuf :=
  if r.kind = BufKind.real then
    if allocOk then
      { kind := .real, buffer := r.buffer, bgn := r.bgn, fin := r.fin,
        len := r.len, usable := r.usable, preserve := r.preserve }
    else setFail junkPreserve
  else setFail junkPreserve

/-- Copy assignment: on a valid destination and a real source,
`clear(); push_back(r.begin, r.end - r.begin)` (the source slice is read
out of the distinct source allocation, so the aliasing guard does not
fire); otherwise no-op. -/
def copyAssign (dst src : RingBuf) : RingBuf :=
  if dst.valid then
    if src.kind = BufKind.real then
      let d := (dst.clear).2
      match d.push_back_list src.occupied with
      | some (_, d2) => d2
      | none => d
    else dst
  else dst

/-- The move constructor: takes over the fields of a real source and nulls
the source's `buffer`; from a non-real source, `setFail()` (with the
`preserve` member uninitialised). -/
def moveCtor (r : RingBuf) (junkPreserve : Bool) : RingBuf × RingBuf :=
  if r.kind = BufKind.real then
    (r, { r with kind := .null })
  else (setFail junkPreserve, r)

/-- Move assignment: like copy assignment on a valid destination, plus
nulling the source's `buffer`; otherwise no-op (the source is untouched). -/
def moveAssign (dst src : RingBuf) : RingBuf × RingBuf :=
  if dst.valid then
    if src.kind = BufKind.real then
      let d := (dst.clear).2
      match d.push_back_list src.occupied with
      | some (_, d2) => (d2, { src with kind := .null })
      | none => (d, { src with kind := .null })
    else (dst, src)
  else (dst, src)

/-- The mirror slot of physical index `i` (`i ± usable`). -/
def mirrorIdx (u i : Nat) : Nat := if i < u then i + u else i - u

/-- The representation invariant of a live buffer: a real allocation of
`2 * usable` elements, cursors with `begin` inside the lower half,
`0 ≤ end - begin ≤ usable`, and every occupied cell equal to its mirror
cell. -/
def BufInv (rb : RingBuf) : Prop :=
  rb.kind = BufKind.real ∧
  rb.len = rb.usable * 2 ∧
  rb.buffer.size = rb.len ∧
  0 ≤ rb.bgn ∧
  rb.bgn ≤ rb.fin ∧
  rb.fin ≤ rb.bgn + rb.usable ∧
  (rb.bgn < rb.usable ∨ (rb.usable = 0 ∧ rb.bgn = 0)) ∧
  ∀ j : Nat, j < rb.size →
    aread rb.buffer (mirrorIdx rb.usable (rb.bgn.toNat + j)) = aread rb.buffer (rb.bgn.toNat + j)

instance (rb : RingBuf) : Decidable (BufInv rb) := by unfold BufInv; infer_instance

/-- The operations a producer/consumer can apply to a buffer. -/
inductive Op
  | push (c : Nat)
  | bulk (l : List Nat)
  | popn (n : Nat)
  | clr
deriving Repr, DecidableEq

/-- One concrete step (the state component of each operation). -/
def stepC (rb : RingBuf) : Op → Option RingBuf
  | .push c => (rb.push_back c).map Prod.snd
  | .bulk l => (rb.push_back_list l).map Prod.snd
  | .popn n => some (rb.pop n).2
  | .clr => some (rb.clear).2

/-- Run a sequence of operations; `none` as soon as a step hits undefined
behaviour. -/
def runC : RingBuf → List Op → Option RingBuf
  | rb, [] => some rb
  | rb, op :: ops => do
    let rb1 ← stepC rb op
    runC rb1 ops

/-- The abstract FIFO model of one operation on the logical content. -/
def modelStep (u : Nat) (p : Bool) (s : List Nat) : Op → List Nat
  | .push c =>
    if s.length < u then s ++ [c]
    else if p then s
    else s.drop 1 ++ [c]
  | .bulk l =>
    if l.length = 0 then s
    else if l.length ≤ u - s.length then s ++ l
    else if p then s
    else
      let l2 := if u < l.length then l.drop (l.length - u) else l
      s.drop (l2.length - (u - s.length)) ++ l2
  | .popn n => s.drop n
  | .clr => []

/-- The abstract FIFO model of a sequence of operations. -/
def modelRun (u : Nat) (p : Bool) : List Nat → List Op → List Nat
  | s, [] => s
  | s, op :: ops => modelRun u p (modelStep u p s op) ops

-- Sanity checks (the mirror-invariant example of the specification:
-- capacity 3, push a b c, pop 1, push d reads back b c d as a flat slice).
example :
    (runC (mkRingBuf 3 false (fun _ => 0)) [.push 10, .push 11, .push 12, .popn 1, .push 13]).bind
      RingBuf.dataSlice = some [11, 12, 13] := by decide

example :
    (runC (mkRingBuf 4 false (fun _ => 0)) [.bulk [1, 2, 3, 4, 5, 6, 7]]).bind
      RingBuf.dataSlice = some [4, 5, 6, 7] := by decide

example :
    (runC (mkRingBuf 4 false (fun _ => 0)) [.bulk [1, 2, 3, 4], .push 5]).bind
      RingBuf.dataSlice = some [2, 3, 4, 5] := by decide

example : BufInv (mkRingBuf 3 true (fun i => i + 7)) := by decide

/-! ## Basic lemmas about the guarded memory operations -/

theorem aread_lt {a : Array Nat} {j : Nat} (h : j < a.size) : aread a j = a[j] := by
  simp [aread, Array.getD, h]

theorem aread_oob {a : Array Nat} {j : Nat} (h : a.size ≤ j) : aread a j = 0 := by
  have : ¬ j < a.size := by omega
  simp [aread, Array.getD, this]

theorem wr_some {a : Array Nat} {i : Int} {v : Nat} (h0 : 0 ≤ i) (h1 : i.toNat < a.size) :
    wr a i v = some (a.set ⟨i.toNat, h1⟩ v) := by
  unfold wr
  rw [dif_pos ⟨h0, h1⟩]

theorem wr_size {a a1 : Array Nat} {i : Int} {v : Nat} (h : wr a i v = some a1) :
    a1.size = a.size := by
  unfold wr at h
  split at h
  · cases h
    simp [Array.size_set]
  · cases h

theorem wr_bounds {a a1 : Array Nat} {i : Int} {v : Nat} (h : wr a i v = some a1) :
    0 ≤ i ∧ i.toNat < a.size := by
  unfold wr at h
  split at h
  · assumption
  · cases h

theorem aread_wr {a a1 : Array Nat} {i : Int} {v : Nat} (h : wr a i v = some a1) (j : Nat) :
    aread a1 j = if (j : Int) = i then v else aread a j := by
  obtain ⟨h0, h1⟩ := wr_bounds h
  rw [wr_some h0 h1] at h
  injection h with h
  subst h
  by_cases hj : j < a.size
  · have hj1 : j < (a.set ⟨i.toNat, h1⟩ v).size := by simpa [Array.size_set] using hj
    rw [aread_lt hj1, aread_lt hj, Array.get_set a _ j hj]
    by_cases hij : (j : Int) = i
    · have hji : i.toNat = j := by omega
      rw [if_pos hji, if_pos hij]
    · have hji : ¬ i.toNat = j := by omega
      rw [if_neg hji, if_neg hij]
  · have hij : ¬ (j : Int) = i := by omega
    have hs1 : (a.set ⟨i.toNat, h1⟩ v).size ≤ j := by rw [Array.size_set]; omega
    rw [if_neg hij, aread_oob hs1, aread_oob (show a.size ≤ j by omega)]

theorem wrList_spec (l : List Nat) :
    ∀ (a : Array Nat) (i : Int), 0 ≤ i → i.toNat + l.length ≤ a.size →
    ∃ a1, wrList a i l = some a1 ∧ a1.size = a.size ∧
      ∀ j : Nat, aread a1 j =
        if i.toNat ≤ j ∧ j < i.toNat + l.length then l.getD (j - i.toNat) 0 else aread a j := by
  induction l with
  | nil =>
    intro a i h0 hle
    refine ⟨a, rfl, rfl, ?_⟩
    intro j
    rw [if_neg (by simp)]
  | cons v vs ih =>
    intro a i h0 hle
    simp only [List.length_cons] at hle
    have h1 : i.toNat < a.size := by omega
    obtain ⟨a2, ha2⟩ : ∃ a2, wr a i v = some a2 := ⟨_, wr_some h0 h1⟩
    have hsz : a2.size = a.size := wr_size ha2
    have h0' : 0 ≤ i + 1 := by omega
    have hle' : (i + 1).toNat + vs.length ≤ a2.size := by rw [hsz]; omega
    obtain ⟨a1, hrun, hsz1, hval⟩ := ih a2 (i + 1) h0' hle'
    refine ⟨a1, ?_, by rw [hsz1, hsz], ?_⟩
    · rw [show wrList a i (v :: vs) = (wr a i v).bind (fun x => wrList x (i + 1) vs) from rfl,
        ha2]
      exact hrun
    · intro j
      rw [hval j, aread_wr ha2 j]
      simp only [List.length_cons]
      rcases Nat.lt_trichotomy j i.toNat with hlt | heq | hgt
      · rw [if_neg (by omega), if_neg (by omega : ¬ (j : Int) = i), if_neg (by omega)]
      · rw [if_neg (by omega), if_pos (by omega : (j : Int) = i), if_pos (by omega)]
        subst heq
        simp
      · by_cases hin : j < i.toNat + 1 + vs.length
        · rw [if_pos (by omega), if_pos (by omega)]
          have hd : j - i.toNat = (j - (i + 1).toNat) + 1 := by omega
          rw [hd]
          simp
        · rw [if_neg (by omega), if_neg (by omega : ¬ (j : Int) = i), if_neg (by omega)]

theorem rd_some {a : Array Nat} {i : Int} (h0 : 0 ≤ i) (h1 : i.toNat < a.size) :
    rd a i = some (aread a i.toNat) := by
  unfold rd
  rw [if_pos ⟨h0, h1⟩]

theorem rdList_spec (n : Nat) :
    ∀ (a : Array Nat) (i : Int), 0 ≤ i → i.toNat + n ≤ a.size →
    rdList a i n = some ((List.range n).map (fun j => aread a (i.toNat + j))) := by
  induction n with
  | zero => intro a i h0 hle; simp [rdList]
  | succ n ih =>
    intro a i h0 hle
    have h1 : i.toNat < a.size := by omega
    have h0' : 0 ≤ i + 1 := by omega
    rw [show rdList a i (n + 1) =
        (rd a i).bind (fun v => (rdList a (i + 1) n).bind (fun rest => some (v :: rest)))
        from rfl,
      rd_some h0 h1, ih a (i + 1) h0' (by omega)]
    show some _ = some _
    congr 1
    rw [List.range_succ_eq_map, List.map_cons, List.map_map]
    have htail : (List.range n).map (fun j => aread a ((i + 1).toNat + j)) =
        (List.range n).map ((fun j => aread a (i.toNat + j)) ∘ Nat.succ) := by
      refine List.map_congr_left ?_
      intro x hx
      simp only [Function.comp_apply]
      congr 1
      omega
    rw [htail]
    simp


theorem list_eq_of_getD {l1 l2 : List Nat} (hlen : l1.length = l2.length)
    (h : ∀ j, j < l1.length → l1.getD j 0 = l2.getD j 0) : l1 = l2 := by
  apply List.ext_getElem hlen
  intro i h1 h2
  have hx := h i h1
  rwa [List.getD_eq_getElem _ _ h1, List.getD_eq_getElem _ _ h2] at hx

theorem getD_range_map (f : Nat → Nat) {n j : Nat} (h : j < n) :
    (((List.range n).map f).getD j 0) = f j := by
  rw [List.getD_eq_getElem _ _ (by simpa using h)]
  simp

theorem getD_oob {l : List Nat} {j : Nat} (h : l.length ≤ j) : l.getD j 0 = 0 := by
  simp [List.getD, List.getElem?_eq_none h]

theorem getD_drop (l : List Nat) {n j : Nat} (h : n + j < l.length) :
    (l.drop n).getD j 0 = l.getD (n + j) 0 := by
  rw [List.getD_eq_getElem _ _ (by simp; omega), List.getD_eq_getElem _ _ h]
  simp [List.getElem_drop]

theorem getD_drop_all (l : List Nat) (n j : Nat) :
    (l.drop n).getD j 0 = l.getD (n + j) 0 := by
  by_cases h : n + j < l.length
  · exact getD_drop l h
  · rw [getD_oob (by simp; omega), getD_oob (by omega)]

theorem getD_append_left {l1 l2 : List Nat} {j : Nat} (h : j < l1.length) :
    (l1 ++ l2).getD j 0 = l1.getD j 0 := by
  rw [List.getD_eq_getElem _ _ (by simp; omega), List.getD_eq_getElem _ _ h]
  exact List.getElem_append_left ..

theorem getD_append_right {l1 l2 : List Nat} {j : Nat} (h : l1.length ≤ j) :
    (l1 ++ l2).getD j 0 = l2.getD (j - l1.length) 0 := by
  by_cases h2 : j < l1.length + l2.length
  · rw [List.getD_eq_getElem _ _ (by simp; omega), List.getD_eq_getElem _ _ (by omega)]
    simp [List.getElem_append_right h]
  · rw [getD_oob (by simp; omega), getD_oob (by omega)]

theorem getD_take {l : List Nat} {m j : Nat} (h : j < m) :
    (l.take m).getD j 0 = l.getD j 0 := by
  by_cases h2 : j < l.length
  · rw [List.getD_eq_getElem _ _ (by simp; omega), List.getD_eq_getElem _ _ h2]
    simp [List.getElem_take]
  · rw [getD_oob (by simp; omega), getD_oob (by omega)]

/-! ## The occupied region and the flat data() slice -/

theorem length_occupied (rb : RingBuf) : rb.occupied.length = rb.size := by
  simp [RingBuf.occupied]

theorem getD_occupied {rb : RingBuf} {j : Nat} (h : j < rb.size) :
    rb.occupied.getD j 0 = aread rb.buffer (rb.bgn.toNat + j) := by
  simp only [RingBuf.occupied]
  rw [getD_range_map _ h]

/-- Under the invariant the whole occupied region is an in-bounds flat
slice: reading `size()` elements at `data()` succeeds and needs no
wraparound arithmetic. -/
theorem dataSlice_of_inv {rb : RingBuf} (h : BufInv rb) : rb.dataSlice = some rb.occupied := by
  obtain ⟨-, hlen, hbufsz, hb0, hbf, hfu, hbu, -⟩ := h
  unfold RingBuf.dataSlice
  rw [rdList_spec rb.size rb.buffer rb.bgn hb0 (by
    simp only [hbufsz, hlen, RingBuf.size]
    omega)]
  rfl

/-! ## Small consequences of the invariant -/

theorem valid_of_inv {rb : RingBuf} (h : BufInv rb) : rb.valid = true := by
  obtain ⟨hk, -⟩ := h
  simp [RingBuf.valid, hk]

theorem size_le_usable {rb : RingBuf} (h : BufInv rb) : rb.size ≤ rb.usable := by
  obtain ⟨-, -, -, hb0, hbf, hfu, -, -⟩ := h
  simp only [RingBuf.size]
  omega

theorem capacity_of_inv {rb : RingBuf} (h : BufInv rb) :
    rb.capacity = rb.usable - rb.size := by
  simp [RingBuf.capacity, valid_of_inv h]

theorem mirrorIdx_lt {u i : Nat} (h : i < u) : mirrorIdx u i = i + u := by
  simp [mirrorIdx, h]

theorem mirrorIdx_ge {u i : Nat} (h : u ≤ i) : mirrorIdx u i = i - u := by
  have : ¬ i < u := by omega
  simp [mirrorIdx, this]

/-! ## clear -/

theorem clear_spec {rb : RingBuf} (h : BufInv rb) :
    rb.clear = (true, { rb with bgn := 0, fin := 0 }) ∧
    BufInv { rb with bgn := 0, fin := 0 } ∧
    ({ rb with bgn := 0, fin := 0 } : RingBuf).occupied = [] := by
  obtain ⟨hk, hlen, hbufsz, hb0, hbf, hfu, hbu, hmir⟩ := h
  refine ⟨by simp [RingBuf.clear, RingBuf.valid, hk], ?_, ?_⟩
  · refine ⟨hk, hlen, hbufsz, le_refl _, le_refl _, by simp, by (try dsimp only); omega, ?_⟩
    intro j hj
    simp [RingBuf.size] at hj
  · simp [RingBuf.occupied, RingBuf.size]

/-! ## pop -/

theorem pop_empty {rb : RingBuf} (h : BufInv rb) (hs : rb.size = 0) (n : Nat) :
    rb.pop n = (0, rb) := by
  simp [RingBuf.pop, valid_of_inv h, hs]

theorem pop_all {rb : RingBuf} (h : BufInv rb) {n : Nat} (hs : rb.size ≠ 0) (hn : rb.size ≤ n) :
    rb.pop n = (rb.size, { rb with bgn := 0, fin := 0 }) := by
  simp [RingBuf.pop, valid_of_inv h, hs, hn, RingBuf.clear]

theorem pop_lt {rb : RingBuf} (h : BufInv rb) {n : Nat} (hn : n < rb.size) :
    ∃ rb1, rb.pop n = (n, rb1) ∧ BufInv rb1 ∧ rb1.usable = rb.usable ∧
      rb1.preserve = rb.preserve ∧ rb1.len = rb.len ∧ rb1.buffer = rb.buffer ∧
      rb1.kind = rb.kind ∧ rb1.size = rb.size - n ∧ rb1.occupied = rb.occupied.drop n := by
  obtain ⟨hk, hlen, hbufsz, hb0, hbf, hfu, hbu, hmir⟩ := h
  have hs : rb.size ≠ 0 := by omega
  have hnot : ¬ rb.size ≤ n := by omega
  have hsz : rb.size = (rb.fin - rb.bgn).toNat := rfl
  have hu0 : 0 < rb.usable := by
    rcases hbu with hx | ⟨hx, -⟩
    · omega
    · exfalso; simp only [RingBuf.size] at hs; omega
  have hblt : rb.bgn < rb.usable := by
    rcases hbu with hx | ⟨hx, -⟩
    · exact hx
    · omega
  by_cases hw : (rb.usable : Int) ≤ rb.bgn + (n : Int)
  · -- wrap: both cursors move down by usable
    refine ⟨{ rb with bgn := rb.bgn + n - rb.usable, fin := rb.fin - rb.usable },
      ?_, ?_, rfl, rfl, rfl, rfl, rfl, ?_, ?_⟩
    · simp [RingBuf.pop, valid_of_inv ⟨hk, hlen, hbufsz, hb0, hbf, hfu, hbu, hmir⟩, hs, hnot, hw]
    · refine ⟨hk, hlen, hbufsz, by (try dsimp only); omega, by (try dsimp only); omega,
        by (try dsimp only); omega, by (try dsimp only); omega, ?_⟩
      intro j hj
      simp only [RingBuf.size] at hj
      try dsimp only at hj ⊢
      have hp : (rb.bgn + n - rb.usable).toNat + j = rb.bgn.toNat + (n + j) - rb.usable := by
        omega
      have hjs : n + j < rb.size := by simp only [RingBuf.size]; omega
      have hold := hmir (n + j) hjs
      have hge : rb.usable ≤ rb.bgn.toNat + (n + j) := by omega
      rw [mirrorIdx_ge hge] at hold
      have hplt : (rb.bgn + n - rb.usable).toNat + j < rb.usable := by omega
      rw [mirrorIdx_lt hplt, hp]
      have he1 : rb.bgn.toNat + (n + j) - rb.usable + rb.usable = rb.bgn.toNat + (n + j) := by
        omega
      rw [he1]
      exact hold.symm
    · simp only [RingBuf.size]; (try dsimp only); omega
    · refine list_eq_of_getD ?_ ?_
      · rw [length_occupied, List.length_drop, length_occupied]
        simp only [RingBuf.size]
        try dsimp only
        omega
      · intro j hj
        rw [length_occupied] at hj
        simp only [RingBuf.size] at hj
        try dsimp only at hj
        have hjs : n + j < rb.size := by simp only [RingBuf.size]; omega
        rw [getD_occupied (by simp only [RingBuf.size]; (try dsimp only); omega), getD_drop_all,
          getD_occupied hjs]
        show aread rb.buffer ((rb.bgn + n - rb.usable).toNat + j) = _
        have hold := hmir (n + j) hjs
        have hge : rb.usable ≤ rb.bgn.toNat + (n + j) := by omega
        rw [mirrorIdx_ge hge] at hold
        have hp : (rb.bgn + n - rb.usable).toNat + j = rb.bgn.toNat + (n + j) - rb.usable := by
          omega
        rw [hp]
        exact hold
  · -- no wrap: only begin moves forward
    refine ⟨{ rb with bgn := rb.bgn + n },
      ?_, ?_, rfl, rfl, rfl, rfl, rfl, ?_, ?_⟩
    · simp [RingBuf.pop, valid_of_inv ⟨hk, hlen, hbufsz, hb0, hbf, hfu, hbu, hmir⟩, hs, hnot, hw]
    · refine ⟨hk, hlen, hbufsz, by (try dsimp only); omega, by (try dsimp only); omega,
        by (try dsimp only); omega, by (try dsimp only); omega, ?_⟩
      intro j hj
      simp only [RingBuf.size] at hj
      try dsimp only at hj ⊢
      have hp : (rb.bgn + n).toNat + j = rb.bgn.toNat + (n + j) := by omega
      have hjs : n + j < rb.size := by simp only [RingBuf.size]; omega
      rw [hp]
      exact hmir (n + j) hjs
    · simp only [RingBuf.size]; (try dsimp only); omega
    · refine list_eq_of_getD ?_ ?_
      · rw [length_occupied, List.length_drop, length_occupied]
        simp only [RingBuf.size]
        try dsimp only
        omega
      · intro j hj
        rw [length_occupied] at hj
        simp only [RingBuf.size] at hj
        try dsimp only at hj
        have hjs : n + j < rb.size := by simp only [RingBuf.size]; omega
        rw [getD_occupied (by simp only [RingBuf.size]; (try dsimp only); omega), getD_drop_all,
          getD_occupied hjs]
        show aread rb.buffer ((rb.bgn + n).toNat + j) = _
        have hp : (rb.bgn + n).toNat + j = rb.bgn.toNat + (n + j) := by omega
        rw [hp]

/-! ## push_back (single element) -/

theorem evictOne_spec {rb : RingBuf} (h : BufInv rb) (hfull : rb.usable ≤ rb.size)
    (hu : 0 < rb.usable) :
    BufInv (evictOne rb) ∧ (evictOne rb).usable = rb.usable ∧
      (evictOne rb).preserve = rb.preserve ∧ (evictOne rb).len = rb.len ∧
      (evictOne rb).buffer = rb.buffer ∧ (evictOne rb).size = rb.size - 1 ∧
      (evictOne rb).occupied = rb.occupied.drop 1 := by
  obtain ⟨hk, hlen, hbufsz, hb0, hbf, hfu, hbu, hmir⟩ := h
  have hsz : rb.size = (rb.fin - rb.bgn).toNat := rfl
  have hblt : rb.bgn < (rb.usable : Int) := by
    rcases hbu with hx | ⟨hx, hy⟩
    · exact hx
    · omega
  have hsu : rb.size = rb.usable := by
    have := size_le_usable ⟨hk, hlen, hbufsz, hb0, hbf, hfu, hbu, hmir⟩
    omega
  unfold evictOne
  by_cases hw : (rb.usable : Int) ≤ rb.bgn + 1
  · -- wrap: begin = buffer, end = begin + usable - 1
    have hbeq : rb.bgn = (rb.usable : Int) - 1 := by omega
    rw [if_pos hw]
    refine ⟨⟨hk, hlen, hbufsz, by (try dsimp only); omega, by (try dsimp only); omega,
      by (try dsimp only); omega, by (try dsimp only); omega, ?_⟩,
      rfl, rfl, rfl, rfl, ?_, ?_⟩
    · intro j hj
      simp only [RingBuf.size] at hj
      try dsimp only at hj ⊢
      -- new occupied cell j sits at physical index j (in the lower half)
      have hjlt : j < rb.usable - 1 := by omega
      have hm := hmir (j + 1) (by omega)
      have hpos : rb.bgn.toNat + (j + 1) = rb.usable + j := by omega
      rw [hpos, mirrorIdx_ge (by omega)] at hm
      have hsub : rb.usable + j - rb.usable = j := by omega
      rw [hsub] at hm
      have hz : (0 : Int).toNat + j = j := by omega
      rw [hz, mirrorIdx_lt (by omega)]
      have hc : j + rb.usable = rb.usable + j := by omega
      rw [hc]
      exact hm.symm
    · simp only [RingBuf.size]
      try dsimp only
      omega
    · refine list_eq_of_getD ?_ ?_
      · rw [length_occupied, List.length_drop, length_occupied]
        simp only [RingBuf.size]
        try dsimp only
        omega
      · intro j hj
        rw [length_occupied] at hj
        simp only [RingBuf.size] at hj
        try dsimp only at hj
        have hjs : 1 + j < rb.size := by omega
        rw [getD_occupied (by simp only [RingBuf.size]; (try dsimp only); omega), getD_drop_all,
          getD_occupied hjs]
        show aread rb.buffer ((0 : Int).toNat + j) = _
        have hm := hmir (1 + j) hjs
        have hpos : rb.bgn.toNat + (1 + j) = rb.usable + j := by omega
        rw [hpos, mirrorIdx_ge (by omega)] at hm
        have hsub : rb.usable + j - rb.usable = j := by omega
        rw [hsub] at hm
        have hz : (0 : Int).toNat + j = j := by omega
        rw [hz, hpos]
        exact hm
  · -- no wrap: only begin advances
    rw [if_neg hw]
    refine ⟨⟨hk, hlen, hbufsz, by (try dsimp only); omega, by (try dsimp only); omega,
      by (try dsimp only); omega, by (try dsimp only); omega, ?_⟩,
      rfl, rfl, rfl, rfl, ?_, ?_⟩
    · intro j hj
      simp only [RingBuf.size] at hj
      try dsimp only at hj ⊢
      have hpos : (rb.bgn + 1).toNat + j = rb.bgn.toNat + (1 + j) := by omega
      rw [hpos]
      exact hmir (1 + j) (by omega)
    · simp only [RingBuf.size]
      try dsimp only
      omega
    · refine list_eq_of_getD ?_ ?_
      · rw [length_occupied, List.length_drop, length_occupied]
        simp only [RingBuf.size]
        try dsimp only
        omega
      · intro j hj
        rw [length_occupied] at hj
        simp only [RingBuf.size] at hj
        try dsimp only at hj
        have hjs : 1 + j < rb.size := by omega
        rw [getD_occupied (by simp only [RingBuf.size]; (try dsimp only); omega), getD_drop_all,
          getD_occupied hjs]
        show aread rb.buffer ((rb.bgn + 1).toNat + j) = _
        have hpos : (rb.bgn + 1).toNat + j = rb.bgn.toNat + (1 + j) := by omega
        rw [hpos]

theorem pushWrite_post {rb : RingBuf} (h : BufInv rb) (hroom : rb.size < rb.usable) {c : Nat}
    {a1 a2 : Array Nat} {w2 : Int}
    (ha1 : wr rb.buffer rb.fin c = some a1) (ha2 : wr a1 w2 c = some a2)
    (h0w2 : 0 ≤ w2)
    (hw2 : ((rb.usable : Int) ≤ rb.fin ∧ w2 = rb.fin - (rb.usable : Int)) ∨
      (rb.fin < (rb.usable : Int) ∧ w2 = rb.fin + (rb.usable : Int))) :
    BufInv { rb with buffer := a2, fin := rb.fin + 1 } ∧
      ({ rb with buffer := a2, fin := rb.fin + 1 } : RingBuf).occupied = rb.occupied ++ [c] := by
  obtain ⟨hk, hlen, hbufsz, hb0, hbf, hfu, hbu, hmir⟩ := h
  have hsz : rb.size = (rb.fin - rb.bgn).toNat := rfl
  have hu0 : 0 < rb.usable := by omega
  have hblt : rb.bgn < (rb.usable : Int) := by
    rcases hbu with hx | ⟨hx, hy⟩
    · exact hx
    · omega
  have hf0 : 0 ≤ rb.fin := le_trans hb0 hbf
  have hsza := wr_size ha1
  have hszb := wr_size ha2
  have keep : ∀ x : Nat, ¬ (x : Int) = rb.fin → ¬ (x : Int) = w2 →
      aread a2 x = aread rb.buffer x := by
    intro x hx1 hx2
    rw [aread_wr ha2 x, if_neg hx2, aread_wr ha1 x, if_neg hx1]
  have newv : aread a2 rb.fin.toNat = c := by
    rw [aread_wr ha2 _, if_neg (by omega), aread_wr ha1 _, if_pos (by omega)]
  have newm : aread a2 w2.toNat = c := by
    rw [aread_wr ha2 _, if_pos (by omega)]
  constructor
  · refine ⟨hk, hlen, by (try dsimp only); rw [hszb, hsza]; exact hbufsz,
      by (try dsimp only); omega, by (try dsimp only); omega, by (try dsimp only); omega,
      by (try dsimp only); omega, ?_⟩
    intro j hj
    simp only [RingBuf.size] at hj
    try dsimp only at hj ⊢
    by_cases hje : j = rb.size
    · subst hje
      have hpos : rb.bgn.toNat + rb.size = rb.fin.toNat := by omega
      rw [hpos]
      have hmieq : mirrorIdx rb.usable rb.fin.toNat = w2.toNat := by
        rcases hw2 with ⟨hv, hw⟩ | ⟨hv, hw⟩
        · rw [mirrorIdx_ge (by omega)]; omega
        · rw [mirrorIdx_lt (by omega)]; omega
      rw [hmieq, newm, newv]
    · have hjlt : j < rb.size := by omega
      have e2 : aread a2 (rb.bgn.toNat + j) = aread rb.buffer (rb.bgn.toNat + j) :=
        keep _ (by omega) (by omega)
      have e1 : aread a2 (mirrorIdx rb.usable (rb.bgn.toNat + j)) =
          aread rb.buffer (mirrorIdx rb.usable (rb.bgn.toNat + j)) := by
        by_cases hpu : rb.bgn.toNat + j < rb.usable
        · rw [mirrorIdx_lt hpu]
          exact keep _ (by omega) (by omega)
        · rw [mirrorIdx_ge (by omega)]
          exact keep _ (by omega) (by omega)
      rw [e1, e2]
      exact hmir j hjlt
  · refine list_eq_of_getD ?_ ?_
    · rw [length_occupied, List.length_append, length_occupied]
      simp only [RingBuf.size, List.length_cons, List.length_nil]
      try dsimp only
      omega
    · intro j hj
      rw [length_occupied] at hj
      simp only [RingBuf.size] at hj
      try dsimp only at hj
      rw [getD_occupied (by simp only [RingBuf.size]; (try dsimp only); omega)]
      try dsimp only
      by_cases hje : j = rb.size
      · subst hje
        rw [getD_append_right (length_occupied rb).le, length_occupied, Nat.sub_self]
        have hpos : rb.bgn.toNat + rb.size = rb.fin.toNat := by omega
        rw [hpos, newv]
        simp
      · have hjlt : j < rb.size := by omega
        rw [getD_append_left (by rw [length_occupied]; exact hjlt), getD_occupied hjlt]
        exact keep _ (by omega) (by omega)

theorem pushWrite_spec {rb : RingBuf} (h : BufInv rb) (hroom : rb.size < rb.usable) (c : Nat) :
    ∃ rb1, pushWrite rb c = some rb1 ∧ BufInv rb1 ∧ rb1.usable = rb.usable ∧
      rb1.preserve = rb.preserve ∧ rb1.len = rb.len ∧ rb1.buffer.size = rb.buffer.size ∧
      rb1.bgn = rb.bgn ∧ rb1.size = rb.size + 1 ∧ rb1.occupied = rb.occupied ++ [c] := by
  have hinv := h
  obtain ⟨hk, hlen, hbufsz, hb0, hbf, hfu, hbu, hmir⟩ := h
  have hsz : rb.size = (rb.fin - rb.bgn).toNat := rfl
  have hu0 : 0 < rb.usable := by omega
  have hblt : rb.bgn < (rb.usable : Int) := by
    rcases hbu with hx | ⟨hx, hy⟩
    · exact hx
    · omega
  have hf0 : 0 ≤ rb.fin := le_trans hb0 hbf
  obtain ⟨a1, ha1⟩ : ∃ a1, wr rb.buffer rb.fin c = some a1 := ⟨_, wr_some hf0 (by omega)⟩
  have hsza := wr_size ha1
  by_cases hcase : (rb.usable : Int) ≤ rb.fin
  · obtain ⟨a2, ha2⟩ : ∃ a2, wr a1 (rb.fin - (rb.usable : Int)) c = some a2 :=
      ⟨_, wr_some (by omega) (by omega)⟩
    obtain ⟨hI, hO⟩ := pushWrite_post hinv hroom ha1 ha2 (by omega) (Or.inl ⟨hcase, rfl⟩)
    refine ⟨_, ?_, hI, rfl, rfl, rfl, by (try dsimp only); rw [wr_size ha2, hsza],
      rfl, by simp only [RingBuf.size]; (try dsimp only); omega, hO⟩
    simp [pushWrite, ha1, Option.some_bind, if_pos hcase, ha2]
  · obtain ⟨a2, ha2⟩ : ∃ a2, wr a1 (rb.fin + (rb.usable : Int)) c = some a2 :=
      ⟨_, wr_some (by omega) (by omega)⟩
    obtain ⟨hI, hO⟩ := pushWrite_post hinv hroom ha1 ha2 (by omega)
      (Or.inr ⟨by omega, rfl⟩)
    refine ⟨_, ?_, hI, rfl, rfl, rfl, by (try dsimp only); rw [wr_size ha2, hsza],
      rfl, by simp only [RingBuf.size]; (try dsimp only); omega, hO⟩
    simp [pushWrite, ha1, Option.some_bind, if_neg hcase, ha2]

theorem push_back_fit {rb : RingBuf} (h : BufInv rb) (hroom : rb.size < rb.usable) (c : Nat) :
    ∃ rb1, rb.push_back c = some (true, rb1) ∧ BufInv rb1 ∧ rb1.usable = rb.usable ∧
      rb1.preserve = rb.preserve ∧ rb1.len = rb.len ∧ rb1.buffer.size = rb.buffer.size ∧
      rb1.bgn = rb.bgn ∧ rb1.size = rb.size + 1 ∧ rb1.occupied = rb.occupied ++ [c] := by
  have hval := valid_of_inv h
  have hcap : (rb.capacity == 0) = false := by
    have : rb.capacity ≠ 0 := by rw [capacity_of_inv h]; omega
    simpa using this
  obtain ⟨rb1, hrun, hrest⟩ := pushWrite_spec h hroom c
  exact ⟨rb1, by simp [RingBuf.push_back, hval, hcap, hrun], hrest⟩

theorem push_back_full_preserve {rb : RingBuf} (h : BufInv rb) (hfull : rb.usable ≤ rb.size)
    (hp : rb.preserve = true) (c : Nat) : rb.push_back c = some (false, rb) := by
  have hval := valid_of_inv h
  have hcap : (rb.capacity == 0) = true := by
    have hle := size_le_usable h
    have : rb.capacity = 0 := by rw [capacity_of_inv h]; omega
    simpa using this
  simp [RingBuf.push_back, hval, hcap, hp]

theorem push_back_evict {rb : RingBuf} (h : BufInv rb) (hfull : rb.usable ≤ rb.size)
    (hp : rb.preserve = false) (hu : 0 < rb.usable) (c : Nat) :
    ∃ rb1, rb.push_back c = some (true, rb1) ∧ BufInv rb1 ∧ rb1.usable = rb.usable ∧
      rb1.preserve = rb.preserve ∧ rb1.len = rb.len ∧ rb1.buffer.size = rb.buffer.size ∧
      rb1.size = rb.size ∧ rb1.occupied = rb.occupied.drop 1 ++ [c] := by
  have hsu : rb.size = rb.usable := by
    have := size_le_usable h
    omega
  obtain ⟨hI1, hu1, hp1, hl1, hb1, hs1, hocc1⟩ := evictOne_spec h hfull hu
  have hroom1 : (evictOne rb).size < (evictOne rb).usable := by
    rw [hs1, hu1]
    omega
  obtain ⟨rb1, hrun, hI, hu2, hp2, hl2, hbs2, hbg2, hsz2, hocc2⟩ := pushWrite_spec hI1 hroom1 c
  have hval := valid_of_inv h
  have hcap : (rb.capacity == 0) = true := by
    have : rb.capacity = 0 := by rw [capacity_of_inv h]; omega
    simpa using this
  refine ⟨rb1, ?_, hI, by rw [hu2, hu1], by rw [hp2, hp1], by rw [hl2, hl1],
    by rw [hbs2, hb1], by rw [hsz2, hs1]; omega, by rw [hocc2, hocc1]⟩
  simp [RingBuf.push_back, hval, hcap, hp, hrun]

/-! ## push_back (bulk) -/

theorem bulkWrite_post {rb : RingBuf} (h : BufInv rb) {src : List Nat} {afin : Array Nat}
    (hfit : rb.size + src.length ≤ rb.usable)
    (hasz : afin.size = rb.buffer.size)
    (hnew : ∀ t : Nat, t < src.length → aread afin (rb.fin.toNat + t) = src.getD t 0)
    (hnewm : ∀ t : Nat, t < src.length →
      aread afin (mirrorIdx rb.usable (rb.fin.toNat + t)) = src.getD t 0)
    (hkeep : ∀ j : Nat, j < rb.size →
      aread afin (rb.bgn.toNat + j) = aread rb.buffer (rb.bgn.toNat + j))
    (hkeepm : ∀ j : Nat, j < rb.size →
      aread afin (mirrorIdx rb.usable (rb.bgn.toNat + j)) =
        aread rb.buffer (mirrorIdx rb.usable (rb.bgn.toNat + j))) :
    BufInv { rb with buffer := afin, fin := rb.fin + src.length } ∧
      ({ rb with buffer := afin, fin := rb.fin + src.length } : RingBuf).occupied =
        rb.occupied ++ src := by
  obtain ⟨hk, hlen, hbufsz, hb0, hbf, hfu, hbu, hmir⟩ := h
  have hsz : rb.size = (rb.fin - rb.bgn).toNat := rfl
  have hf0 : 0 ≤ rb.fin := le_trans hb0 hbf
  constructor
  · refine ⟨hk, hlen, by (try dsimp only); rw [hasz]; exact hbufsz,
      by (try dsimp only); omega, by (try dsimp only); omega, by (try dsimp only); omega,
      by (try dsimp only); omega, ?_⟩
    intro j hj
    simp only [RingBuf.size] at hj
    try dsimp only at hj ⊢
    by_cases hje : j < rb.size
    · rw [hkeep j hje, hkeepm j hje]
      exact hmir j hje
    · have hpos : rb.bgn.toNat + j = rb.fin.toNat + (j - rb.size) := by omega
      rw [hpos, hnew _ (by omega), hnewm _ (by omega)]
  · refine list_eq_of_getD ?_ ?_
    · rw [length_occupied, List.length_append, length_occupied]
      simp only [RingBuf.size]
      try dsimp only
      omega
    · intro j hj
      rw [length_occupied] at hj
      simp only [RingBuf.size] at hj
      try dsimp only at hj
      rw [getD_occupied (by simp only [RingBuf.size]; (try dsimp only); omega)]
      try dsimp only
      by_cases hje : j < rb.size
      · rw [getD_append_left (by rw [length_occupied]; exact hje), getD_occupied hje]
        exact hkeep j hje
      · rw [getD_append_right (by rw [length_occupied]; omega), length_occupied]
        have hpos : rb.bgn.toNat + j = rb.fin.toNat + (j - rb.size) := by omega
        rw [hpos]
        exact hnew _ (by omega)

theorem bulkWrite_spec {rb : RingBuf} (h : BufInv rb) (src : List Nat)
    (hfit : rb.size + src.length ≤ rb.usable)
    (hsafe : rb.fin + (rb.usable : Int) + src.length ≤ (rb.len : Int) ∨
      rb.usable - rb.fin.toNat < 65536) :
    ∃ rb1, bulkWrite rb src = some rb1 ∧ BufInv rb1 ∧ rb1.usable = rb.usable ∧
      rb1.preserve = rb.preserve ∧ rb1.len = rb.len ∧ rb1.buffer.size = rb.buffer.size ∧
      rb1.bgn = rb.bgn ∧ rb1.size = rb.size + src.length ∧
      rb1.occupied = rb.occupied ++ src := by
  have hinv := h
  obtain ⟨hk, hlen, hbufsz, hb0, hbf, hfu, hbu, hmir⟩ := h
  have hszn : rb.size = (rb.fin - rb.bgn).toNat := rfl
  have hf0 : 0 ≤ rb.fin := le_trans hb0 hbf
  obtain ⟨a1, hw1, hs1, hv1⟩ := wrList_spec src rb.buffer rb.fin hf0 (by omega)
  by_cases hcA : (rb.usable : Int) ≤ rb.fin
  · -- end in the upper half: mirror into the lower half
    obtain ⟨a2, hw2, hs2, hv2⟩ := wrList_spec src a1 (rb.fin - rb.usable) (by omega)
      (by rw [hs1]; omega)
    have hnew : ∀ t : Nat, t < src.length → aread a2 (rb.fin.toNat + t) = src.getD t 0 := by
      intro t ht
      rw [hv2, if_neg (by omega), hv1, if_pos (by omega)]
      congr 1
      omega
    have hnewm : ∀ t : Nat, t < src.length →
        aread a2 (mirrorIdx rb.usable (rb.fin.toNat + t)) = src.getD t 0 := by
      intro t ht
      rw [mirrorIdx_ge (by omega), hv2, if_pos (by omega)]
      congr 1
      omega
    have hkeep : ∀ j : Nat, j < rb.size →
        aread a2 (rb.bgn.toNat + j) = aread rb.buffer (rb.bgn.toNat + j) := by
      intro j hj
      rw [hv2, if_neg (by omega), hv1, if_neg (by omega)]
    have hkeepm : ∀ j : Nat, j < rb.size →
        aread a2 (mirrorIdx rb.usable (rb.bgn.toNat + j)) =
          aread rb.buffer (mirrorIdx rb.usable (rb.bgn.toNat + j)) := by
      intro j hj
      by_cases hpu : rb.bgn.toNat + j < rb.usable
      · rw [mirrorIdx_lt hpu, hv2, if_neg (by omega), hv1, if_neg (by omega)]
      · rw [mirrorIdx_ge (by omega), hv2, if_neg (by omega), hv1, if_neg (by omega)]
    obtain ⟨hI, hO⟩ := bulkWrite_post hinv hfit (by rw [hs2, hs1]) hnew hnewm hkeep hkeepm
    refine ⟨_, ?_, hI, rfl, rfl, rfl, by (try dsimp only); rw [hs2, hs1], rfl,
      by simp only [RingBuf.size]; (try dsimp only); omega, hO⟩
    simp [bulkWrite, hw1, Option.some_bind, if_pos hcA, hw2]
  · by_cases hcB : rb.fin + (rb.usable : Int) + src.length ≤ (rb.len : Int)
    · -- end in the lower half, the mirror copy fits before buffer + len
      obtain ⟨a2, hw2, hs2, hv2⟩ := wrList_spec src a1 (rb.fin + rb.usable) (by omega)
        (by rw [hs1]; omega)
      have hnew : ∀ t : Nat, t < src.length → aread a2 (rb.fin.toNat + t) = src.getD t 0 := by
        intro t ht
        rw [hv2, if_neg (by omega), hv1, if_pos (by omega)]
        congr 1
        omega
      have hnewm : ∀ t : Nat, t < src.length →
          aread a2 (mirrorIdx rb.usable (rb.fin.toNat + t)) = src.getD t 0 := by
        intro t ht
        rw [mirrorIdx_lt (by omega), hv2, if_pos (by omega)]
        congr 1
        omega
      have hkeep : ∀ j : Nat, j < rb.size →
          aread a2 (rb.bgn.toNat + j) = aread rb.buffer (rb.bgn.toNat + j) := by
        intro j hj
        rw [hv2, if_neg (by omega), hv1, if_neg (by omega)]
      have hkeepm : ∀ j : Nat, j < rb.size →
          aread a2 (mirrorIdx rb.usable (rb.bgn.toNat + j)) =
            aread rb.buffer (mirrorIdx rb.usable (rb.bgn.toNat + j)) := by
        intro j hj
        rw [mirrorIdx_lt (by omega), hv2, if_neg (by omega), hv1, if_neg (by omega)]
      obtain ⟨hI, hO⟩ := bulkWrite_post hinv hfit (by rw [hs2, hs1]) hnew hnewm hkeep hkeepm
      refine ⟨_, ?_, hI, rfl, rfl, rfl, by (try dsimp only); rw [hs2, hs1], rfl,
        by simp only [RingBuf.size]; (try dsimp only); omega, hO⟩
      simp [bulkWrite, hw1, Option.some_bind, if_neg hcA, if_pos hcB, hw2]
    · -- split copy: the mirror would overrun buffer + len
      have hu0 : 0 < rb.usable := by omega
      have hfp : firstPartOf rb.len rb.fin.toNat rb.usable = rb.usable - rb.fin.toNat := by
        unfold firstPartOf
        have h2u : rb.len - (rb.fin.toNat + rb.usable) = rb.usable - rb.fin.toNat := by omega
        rw [h2u]
        refine Nat.mod_eq_of_lt ?_
        rcases hsafe with hx | hx
        · exfalso; omega
        · exact hx
      have hlt2 : (src.take (rb.usable - rb.fin.toNat)).length =
          min (rb.usable - rb.fin.toNat) src.length := List.length_take ..
      have hld : (src.drop (rb.usable - rb.fin.toNat)).length =
          src.length - (rb.usable - rb.fin.toNat) := List.length_drop ..
      obtain ⟨a2, hw2, hs2, hv2⟩ := wrList_spec (src.take (rb.usable - rb.fin.toNat)) a1
        (rb.fin + rb.usable) (by omega) (by rw [hs1, hlt2]; omega)
      obtain ⟨a3, hw3, hs3, hv3⟩ := wrList_spec (src.drop (rb.usable - rb.fin.toNat)) a2
        0 (by omega) (by rw [hs2, hs1, hld]; omega)
      have hnew : ∀ t : Nat, t < src.length → aread a3 (rb.fin.toNat + t) = src.getD t 0 := by
        intro t ht
        rw [hv3, if_neg (by rw [hld]; omega), hv2, if_neg (by rw [hlt2]; omega),
          hv1, if_pos (by omega)]
        congr 1
        omega
      have hnewm : ∀ t : Nat, t < src.length →
          aread a3 (mirrorIdx rb.usable (rb.fin.toNat + t)) = src.getD t 0 := by
        intro t ht
        by_cases hpu : rb.fin.toNat + t < rb.usable
        · rw [mirrorIdx_lt hpu, hv3, if_neg (by rw [hld]; omega),
            hv2, if_pos (by rw [hlt2]; omega)]
          have he : rb.fin.toNat + t + rb.usable - (rb.fin + rb.usable).toNat = t := by omega
          rw [he, getD_take (by omega)]
        · rw [mirrorIdx_ge (by omega), hv3, if_pos (by rw [hld]; omega), getD_drop_all]
          congr 1
          omega
      have hkeep : ∀ j : Nat, j < rb.size →
          aread a3 (rb.bgn.toNat + j) = aread rb.buffer (rb.bgn.toNat + j) := by
        intro j hj
        rw [hv3, if_neg (by rw [hld]; omega), hv2, if_neg (by rw [hlt2]; omega),
          hv1, if_neg (by omega)]
      have hkeepm : ∀ j : Nat, j < rb.size →
          aread a3 (mirrorIdx rb.usable (rb.bgn.toNat + j)) =
            aread rb.buffer (mirrorIdx rb.usable (rb.bgn.toNat + j)) := by
        intro j hj
        rw [mirrorIdx_lt (by omega), hv3, if_neg (by rw [hld]; omega),
          hv2, if_neg (by rw [hlt2]; omega), hv1, if_neg (by omega)]
      obtain ⟨hI, hO⟩ := bulkWrite_post hinv hfit (by rw [hs3, hs2, hs1]) hnew hnewm hkeep hkeepm
      refine ⟨_, ?_, hI, rfl, rfl, rfl, by (try dsimp only); rw [hs3, hs2, hs1], rfl,
        by simp only [RingBuf.size]; (try dsimp only); omega, hO⟩
      simp [bulkWrite, hw1, Option.some_bind, if_neg hcA, if_neg hcB, hfp, hw2, hw3]

/-- The clipping of an over-long source batch to its last `usable`
elements (`data += (size - usable); size = usable`). -/
def clipSrc (u : Nat) (src : List Nat) : List Nat :=
  if u < src.length then src.drop (src.length - u) else src

theorem length_clipSrc (u : Nat) (src : List Nat) :
    (clipSrc u src).length = min src.length u := by
  unfold clipSrc
  split <;> simp [List.length_drop] <;> omega

theorem evict_for {rb rb1 : RingBuf} (h : BufInv rb) {d : Nat} (hd : d ≤ rb.size)
    (hrb1 : rb1 = if (rb.usable : Int) ≤ rb.bgn + (d : Int) then
        { rb with bgn := rb.bgn + (d : Int) - rb.usable, fin := rb.fin - rb.usable }
      else { rb with bgn := rb.bgn + (d : Int) }) :
    BufInv rb1 ∧ rb1.usable = rb.usable ∧ rb1.preserve = rb.preserve ∧ rb1.len = rb.len ∧
      rb1.buffer = rb.buffer ∧ rb1.size = rb.size - d ∧ rb1.occupied = rb.occupied.drop d := by
  obtain ⟨hk, hlen, hbufsz, hb0, hbf, hfu, hbu, hmir⟩ := h
  have hszn : rb.size = (rb.fin - rb.bgn).toNat := rfl
  subst hrb1
  by_cases hw : (rb.usable : Int) ≤ rb.bgn + (d : Int)
  · rw [if_pos hw]
    refine ⟨⟨hk, hlen, hbufsz, by (try dsimp only); omega, by (try dsimp only); omega,
      by (try dsimp only); omega, by (try dsimp only); omega, ?_⟩,
      rfl, rfl, rfl, rfl, by simp only [RingBuf.size]; (try dsimp only); omega, ?_⟩
    · intro j hj
      simp only [RingBuf.size] at hj
      try dsimp only at hj ⊢
      have hjs : d + j < rb.size := by omega
      have hold := hmir (d + j) hjs
      have hge : rb.usable ≤ rb.bgn.toNat + (d + j) := by omega
      rw [mirrorIdx_ge hge] at hold
      have hplt : (rb.bgn + (d : Int) - rb.usable).toNat + j < rb.usable := by omega
      rw [mirrorIdx_lt hplt]
      have hp : (rb.bgn + (d : Int) - rb.usable).toNat + j =
          rb.bgn.toNat + (d + j) - rb.usable := by omega
      rw [hp]
      have he1 : rb.bgn.toNat + (d + j) - rb.usable + rb.usable = rb.bgn.toNat + (d + j) := by
        omega
      rw [he1]
      exact hold.symm
    · refine list_eq_of_getD ?_ ?_
      · rw [length_occupied, List.length_drop, length_occupied]
        simp only [RingBuf.size]
        try dsimp only
        omega
      · intro j hj
        rw [length_occupied] at hj
        simp only [RingBuf.size] at hj
        try dsimp only at hj
        have hjs : d + j < rb.size := by omega
        rw [getD_occupied (by simp only [RingBuf.size]; (try dsimp only); omega), getD_drop_all,
          getD_occupied hjs]
        show aread rb.buffer ((rb.bgn + (d : Int) - rb.usable).toNat + j) = _
        have hold := hmir (d + j) hjs
        have hge : rb.usable ≤ rb.bgn.toNat + (d + j) := by omega
        rw [mirrorIdx_ge hge] at hold
        have hp : (rb.bgn + (d : Int) - rb.usable).toNat + j =
            rb.bgn.toNat + (d + j) - rb.usable := by omega
        rw [hp]
        exact hold
  · rw [if_neg hw]
    refine ⟨⟨hk, hlen, hbufsz, by (try dsimp only); omega, by (try dsimp only); omega,
      by (try dsimp only); omega, by (try dsimp only); omega, ?_⟩,
      rfl, rfl, rfl, rfl, by simp only [RingBuf.size]; (try dsimp only); omega, ?_⟩
    · intro j hj
      simp only [RingBuf.size] at hj
      try dsimp only at hj ⊢
      have hp : (rb.bgn + (d : Int)).toNat + j = rb.bgn.toNat + (d + j) := by omega
      rw [hp]
      exact hmir (d + j) (by omega)
    · refine list_eq_of_getD ?_ ?_
      · rw [length_occupied, List.length_drop, length_occupied]
        simp only [RingBuf.size]
        try dsimp only
        omega
      · intro j hj
        rw [length_occupied] at hj
        simp only [RingBuf.size] at hj
        try dsimp only at hj
        have hjs : d + j < rb.size := by omega
        rw [getD_occupied (by simp only [RingBuf.size]; (try dsimp only); omega), getD_drop_all,
          getD_occupied hjs]
        show aread rb.buffer ((rb.bgn + (d : Int)).toNat + j) = _
        have hp : (rb.bgn + (d : Int)).toNat + j = rb.bgn.toNat + (d + j) := by omega
        rw [hp]

theorem push_back_list_nil (rb : RingBuf) : rb.push_back_list [] = some (false, rb) := by
  unfold RingBuf.push_back_list
  split
  · rfl
  · rfl

theorem push_back_list_overflow_preserve {rb : RingBuf} (h : BufInv rb) (src : List Nat)
    (hp : rb.preserve = true) (hk : rb.capacity < src.length) :
    rb.push_back_list src = some (false, rb) := by
  have h1 : (!rb.valid) = false := by rw [valid_of_inv h]; rfl
  have hne : (src.length == 0) = false := beq_eq_false_iff_ne.mpr (by omega)
  simp only [RingBuf.push_back_list, h1, hne, hp, Bool.false_eq_true, if_false, if_pos hk,
    if_true]

theorem push_back_list_fit {rb : RingBuf} (h : BufInv rb) (src : List Nat)
    (hne0 : src.length ≠ 0) (hfit : src.length ≤ rb.capacity)
    (hsafe : rb.fin + (rb.usable : Int) + src.length ≤ (rb.len : Int) ∨
      rb.usable - rb.fin.toNat < 65536) :
    ∃ rb2, rb.push_back_list src = some (true, rb2) ∧ BufInv rb2 ∧
      rb2.usable = rb.usable ∧ rb2.preserve = rb.preserve ∧ rb2.len = rb.len ∧
      rb2.buffer.size = rb.buffer.size ∧ rb2.bgn = rb.bgn ∧
      rb2.size = rb.size + src.length ∧ rb2.occupied = rb.occupied ++ src := by
  have hcap := capacity_of_inv h
  have hsu := size_le_usable h
  have hne : (src.length == 0) = false := beq_eq_false_iff_ne.mpr (by omega)
  have hnlt : ¬ rb.capacity < src.length := by omega
  have hfit2 : rb.size + src.length ≤ rb.usable := by omega
  obtain ⟨rb2, hw, hrest⟩ := bulkWrite_spec h src hfit2 hsafe
  refine ⟨rb2, ?_, hrest⟩
  have h1 : (!rb.valid) = false := by rw [valid_of_inv h]; rfl
  simp only [RingBuf.push_back_list, h1, hne, Bool.false_eq_true, if_false, if_neg hnlt]
  rw [hw, Option.map_some']

theorem push_back_list_overflow_evict {rb : RingBuf} (h : BufInv rb) (src : List Nat)
    (hp : rb.preserve = false) (hk : rb.capacity < src.length) (hu16 : rb.usable < 65536) :
    ∃ rb2, rb.push_back_list src = some (true, rb2) ∧ BufInv rb2 ∧
      rb2.usable = rb.usable ∧ rb2.preserve = rb.preserve ∧ rb2.len = rb.len ∧
      rb2.buffer.size = rb.buffer.size ∧ rb2.size = rb.usable ∧
      rb2.occupied = rb.occupied.drop ((clipSrc rb.usable src).length - rb.capacity) ++
        clipSrc rb.usable src := by
  have hval := valid_of_inv h
  have hcl := length_clipSrc rb.usable src
  have hcap := capacity_of_inv h
  have hsu := size_le_usable h
  have hdle : (clipSrc rb.usable src).length - rb.capacity ≤ rb.size := by omega
  obtain ⟨hI1, hu1, hp1, hl1, hb1, hs1, ho1⟩ := evict_for h hdle rfl
  obtain ⟨rb2, hw, hI2, hu2, hp2, hl2, hbs2, hbg2, hsz2, ho2⟩ :=
    bulkWrite_spec hI1 (clipSrc rb.usable src)
      (by rw [hs1, hu1]; omega)
      (Or.inr (by rw [hu1]; omega))
  refine ⟨rb2, ?_, hI2, hu2.trans hu1, hp2.trans hp1, hl2.trans hl1,
    hbs2.trans (congrArg Array.size hb1), by rw [hsz2, hs1]; omega, by rw [ho2, ho1]⟩
  have h1 : (!rb.valid) = false := by rw [hval]; rfl
  have hne : (src.length == 0) = false := beq_eq_false_iff_ne.mpr (by omega)
  have hpneg : ¬ rb.preserve = true := by rw [hp]; exact Bool.false_ne_true
  simp only [RingBuf.push_back_list, h1, hne, Bool.false_eq_true, if_false, if_pos hk,
    if_neg hpneg]
  show (bulkWrite (if (rb.usable : Int) ≤
      rb.bgn + (((clipSrc rb.usable src).length - rb.capacity : Nat) : Int) then
        { rb with bgn := rb.bgn + (((clipSrc rb.usable src).length - rb.capacity : Nat) : Int) -
            rb.usable, fin := rb.fin - rb.usable }
      else { rb with bgn :=
        rb.bgn + (((clipSrc rb.usable src).length - rb.capacity : Nat) : Int) })
      (clipSrc rb.usable src)).map (fun r => (true, r)) = some (true, rb2)
  rw [hw, Option.map_some']

/-! ## Construction -/

theorem mkRingBuf_inv (sz : Nat) (p : Bool) (junk : Nat → Nat) :
    BufInv (mkRingBuf sz p junk) := by
  refine ⟨rfl, rfl, ?_, by simp [mkRingBuf], by simp [mkRingBuf], by simp [mkRingBuf], ?_, ?_⟩
  · simp [mkRingBuf, mkBuf]
  · rcases Nat.eq_zero_or_pos sz with h0 | h0
    · exact Or.inr ⟨h0, rfl⟩
    · exact Or.inl (show (0 : Int) < (sz : Int) by omega)
  · intro j hj
    simp [RingBuf.size, mkRingBuf] at hj

theorem mkRingBuf_occupied (sz : Nat) (p : Bool) (junk : Nat → Nat) :
    (mkRingBuf sz p junk).occupied = [] := by
  simp [RingBuf.occupied, RingBuf.size, mkRingBuf]

/-- C9: an invalid (sentinel) buffer — as installed by `setFail`, in
particular by a failing construction — reports `size() = 0` and
`capacity() = 0`, and every mutating operation (`clear`, `pop`,
`push_back` single and bulk, `safeCopy`) returns its failure value and
leaves the sentinel state unchanged. -/
theorem C9_sentinel_noop (p : Bool) (n c lenReq : Nat) (l : List Nat) (mv : Bool) :
    mkRingBufFail p = setFail p ∧
    (setFail p).valid = false ∧
    (setFail p).size = 0 ∧
    (setFail p).capacity = 0 ∧
    (setFail p).clear = (false, setFail p) ∧
    (setFail p).pop n = (0, setFail p) ∧
    (setFail p).push_back c = some (false, setFail p) ∧
    (setFail p).push_back_list l = some (false, setFail p) ∧
    (setFail p).safeCopy lenReq mv = some ([], 0, setFail p) :=
  ⟨rfl, rfl, rfl, rfl, rfl, rfl, rfl, rfl, rfl⟩

/-- C10: constructing with requested capacity 0 and `preserve = false`
(allocation succeeding) yields a buffer that is `valid()` with
`capacity() = 0`; a subsequent `push_back` takes the eviction branch,
placing the `end` cursor at offset `-1` (one element before the start of
storage), and the element store is out of bounds — the guarded embedding
returns the error value `none`. -/
theorem C10_zero_capacity_push_out_of_bounds :
    (mkRingBuf 0 false (fun _ => 0)).valid = true ∧
    (mkRingBuf 0 false (fun _ => 0)).capacity = 0 ∧
    (evictOne (mkRingBuf 0 false (fun _ => 0))).fin = -1 ∧
    (mkRingBuf 0 false (fun _ => 0)).push_back 5 = none := by decide

/-- C8: the indexed read `operator[]` returns the `i`-th occupied element
(0-based from the oldest) for `i < size()`, the zero element for
`i ≥ size()`, and the zero element on an invalid buffer; the in-range
access is a guarded in-bounds read (never out of bounds). -/
theorem C8_indexed_read (rb : RingBuf) (i : Nat) :
    (rb.valid = false → rb.readIndex i = some 0) ∧
    (BufInv rb → i < rb.size → rb.readIndex i = some (rb.occupied.getD i 0)) ∧
    (BufInv rb → rb.size ≤ i → rb.readIndex i = some 0) := by
  refine ⟨?_, ?_, ?_⟩
  · intro hv
    simp [RingBuf.readIndex, hv]
  · intro h hi
    have hv := valid_of_inv h
    obtain ⟨hk, hlen, hbufsz, hb0, hbf, hfu, hbu, hmir⟩ := h
    have hszn : rb.size = (rb.fin - rb.bgn).toNat := rfl
    simp only [RingBuf.readIndex, hv, Bool.not_true, Bool.false_eq_true, if_false, if_pos hi]
    rw [rd_some (by omega) (by omega), getD_occupied hi]
    have he : (rb.bgn + (i : Int)).toNat = rb.bgn.toNat + i := by omega
    rw [he]
  · intro h hi
    have hv := valid_of_inv h
    have hni : ¬ i < rb.size := by omega
    simp [RingBuf.readIndex, hv, hni]

/-- C7: `pop(n)` on a valid buffer removes the `n` oldest elements when
`n < size()` (returning `n`, keeping the remaining elements in order),
clears the buffer and returns the prior size when `n ≥ size() > 0`, and
returns 0 without any change on an empty or invalid buffer. -/
theorem C7_pop_semantics (rb : RingBuf) (n : Nat) :
    (rb.valid = false → rb.pop n = (0, rb)) ∧
    (BufInv rb → rb.size = 0 → rb.pop n = (0, rb)) ∧
    (BufInv rb → 0 < rb.size → rb.size ≤ n →
      (rb.pop n).1 = rb.size ∧ ((rb.pop n).2).size = 0 ∧
        ((rb.pop n).2).dataSlice = some []) ∧
    (BufInv rb → 0 < n → n < rb.size →
      (rb.pop n).1 = n ∧ ((rb.pop n).2).size = rb.size - n ∧
        ((rb.pop n).2).dataSlice = some (rb.occupied.drop n)) := by
  refine ⟨?_, ?_, ?_, ?_⟩
  · intro hv
    simp [RingBuf.pop, hv]
  · intro h hs
    exact pop_empty h hs n
  · intro h hs hn
    rw [pop_all h (by omega) hn]
    obtain ⟨-, hI, hocc⟩ := clear_spec h
    exact ⟨rfl, rfl, by rw [dataSlice_of_inv hI, hocc]⟩
  · intro h hn0 hn
    obtain ⟨rb1, hrun, hI, hu1, hp1, hl1, hb1, hk1, hsz1, hocc1⟩ := pop_lt h hn
    rw [hrun]
    exact ⟨rfl, hsz1, by rw [dataSlice_of_inv hI, hocc1]⟩

/-- C3: `push_back` on a full (`size() = usable > 0`) non-preserving
buffer succeeds, leaves `size()` at `usable`, evicts exactly the oldest
element and appends the new one as the newest: the readable content goes
from `xs` to `xs.drop 1 ++ [c]`. -/
theorem C3_push_full_nonpreserve_evicts_oldest (rb : RingBuf) (c : Nat) (h : BufInv rb)
    (hp : rb.preserve = false) (hu : 0 < rb.usable) (hfull : rb.size = rb.usable) :
    (rb.push_back c).map Prod.fst = some true ∧
    (rb.push_back c).map (fun r => r.2.size) = some rb.usable ∧
    (rb.push_back c).bind (fun r => r.2.dataSlice) = some (rb.occupied.drop 1 ++ [c]) := by
  obtain ⟨rb1, hrun, hI, hu1, hp1, hl1, hbs1, hsz1, hocc1⟩ :=
    push_back_evict h (by omega) hp hu c
  rw [hrun]
  refine ⟨rfl, ?_, ?_⟩
  · simp only [Option.map_some']
    rw [hsz1, hfull]
  · simp only [Option.some_bind]
    rw [dataSlice_of_inv hI, hocc1]

/-- C4: with `preserve = true`, an insertion that exceeds the free
capacity is refused and the buffer is returned completely unchanged:
`push_back` on a full buffer returns `false` with the state untouched,
and a bulk `push_back` whose count exceeds `capacity()` fails entirely
with no partial insert. -/
theorem C4_preserve_full_refusal (rb : RingBuf) (c : Nat) (src : List Nat) (h : BufInv rb)
    (hp : rb.preserve = true) :
    (rb.capacity = 0 → rb.push_back c = some (false, rb)) ∧
    (rb.capacity < src.length → rb.push_back_list src = some (false, rb)) := by
  have hcap := capacity_of_inv h
  constructor
  · intro hc
    exact push_back_full_preserve h (by omega) hp c
  · intro hk
    exact push_back_list_overflow_preserve h src hp hk

/-! ## Copy and move semantics -/

/-- C5 counterexample: copy assignment into a valid but too-small
destination (capacity 1, preserve) loses the content of a 4-element
source, so "copying produces identical logical content regardless of the
destination's capacity and policy" is false as stated. -/
theorem C5_copy_not_capacity_independent :
    BufInv (⟨BufKind.real, #[0, 0], 0, 0, 2, 1, true⟩ : RingBuf) ∧
    BufInv (⟨BufKind.real, #[1, 2, 3, 4, 1, 2, 3, 4], 0, 4, 8, 4, false⟩ : RingBuf) ∧
    ¬ ((copyAssign (⟨BufKind.real, #[0, 0], 0, 0, 2, 1, true⟩ : RingBuf)
          (⟨BufKind.real, #[1, 2, 3, 4, 1, 2, 3, 4], 0, 4, 8, 4, false⟩ : RingBuf)).size =
        (⟨BufKind.real, #[1, 2, 3, 4, 1, 2, 3, 4], 0, 4, 8, 4, false⟩ : RingBuf).size ∧
      (copyAssign (⟨BufKind.real, #[0, 0], 0, 0, 2, 1, true⟩ : RingBuf)
          (⟨BufKind.real, #[1, 2, 3, 4, 1, 2, 3, 4], 0, 4, 8, 4, false⟩ : RingBuf)).dataSlice =
        (⟨BufKind.real, #[1, 2, 3, 4, 1, 2, 3, 4], 0, 4, 8, 4, false⟩ : RingBuf).dataSlice) := by
  decide

/-- C5 (amended): copy construction from a valid source (allocation
succeeding) clones the logical content exactly; copy construction from an
invalid source installs the sentinel.  Copy assignment re-creates the
source content in the destination provided the destination is valid and
the source's size fits the destination's `usable` capacity; an invalid
source leaves the destination unchanged. -/
theorem C5_copy_semantics (src dst : RingBuf) (jp : Bool) :
    (src.kind = BufKind.real →
      (copyCtor src true jp).size = src.size ∧
      (copyCtor src true jp).dataSlice = src.dataSlice) ∧
    (src.kind ≠ BufKind.real → ∀ ak : Bool, copyCtor src ak jp = setFail jp) ∧
    (BufInv dst → BufInv src → src.size ≤ dst.usable →
      (copyAssign dst src).size = src.size ∧
      (copyAssign dst src).dataSlice = src.dataSlice) ∧
    (src.kind ≠ BufKind.real → copyAssign dst src = dst) := by
  refine ⟨?_, ?_, ?_, ?_⟩
  · intro hr
    constructor
    · simp [copyCtor, hr, RingBuf.size]
    · simp [copyCtor, hr, RingBuf.dataSlice, RingBuf.size]
  · intro hr ak
    simp [copyCtor, hr]
  · intro hd hs hfit
    have hv := valid_of_inv hd
    have hkr : src.kind = BufKind.real := hs.1
    have hdlen : dst.len = dst.usable * 2 := hd.2.1
    obtain ⟨hceq, hI0, hocc0⟩ := clear_spec hd
    have hslen : src.occupied.length = src.size := length_occupied src
    have hsrcsz : src.size = (src.fin - src.bgn).toNat := rfl
    have hds : src.dataSlice = some src.occupied := dataSlice_of_inv hs
    have hca : copyAssign dst src =
        match ({ dst with bgn := 0, fin := 0 } : RingBuf).push_back_list src.occupied with
        | some (_, d2) => d2
        | none => { dst with bgn := 0, fin := 0 } := by
      simp only [copyAssign, hv, if_pos hkr, eq_self_iff_true, if_true, hceq]
    by_cases hsz0 : src.size = 0
    · have hocc_nil : src.occupied = [] := List.eq_nil_of_length_eq_zero (by rw [hslen, hsz0])
      rw [hca, hocc_nil, push_back_list_nil]
      constructor
      · show ({ dst with bgn := 0, fin := 0 } : RingBuf).size = src.size
        simp [RingBuf.size]
        omega
      · rw [hds, hocc_nil]
        show ({ dst with bgn := 0, fin := 0 } : RingBuf).dataSlice = some []
        rw [dataSlice_of_inv hI0, hocc0]
    · have hne0 : src.occupied.length ≠ 0 := by rw [hslen]; exact hsz0
      have hD0sz : ({ dst with bgn := 0, fin := 0 } : RingBuf).size = 0 := rfl
      obtain ⟨rb2, hw, hI2, hu2, hp2, hl2, hbs2, hbg2, hsz2, ho2⟩ :=
        push_back_list_fit hI0 src.occupied hne0
          (by rw [capacity_of_inv hI0, hslen, hD0sz]; (try dsimp only); omega)
          (Or.inl (show (0 : Int) + (dst.usable : Int) + (src.occupied.length : Int) ≤
            (dst.len : Int) by rw [hslen, hdlen]; omega))
      rw [hca, hw]
      constructor
      · show rb2.size = src.size
        rw [hsz2, hslen, hD0sz]
        omega
      · rw [hds]
        show rb2.dataSlice = some src.occupied
        rw [dataSlice_of_inv hI2, ho2, hocc0]
        simp
  · intro hr
    simp [copyAssign, hr, ite_self]

/-- C6 counterexample: move assignment into an invalid destination leaves
the source completely untouched — it still reports `valid()`, so "after
every move the source is invalid and empty, whatever the destination's
prior state" is false as stated. -/
theorem C6_move_into_invalid_dst_keeps_source :
    BufInv (⟨BufKind.real, #[7, 7], 0, 1, 2, 1, false⟩ : RingBuf) ∧
    (setFail false).valid = false ∧
    ¬ ((moveAssign (setFail false) (⟨BufKind.real, #[7, 7], 0, 1, 2, 1, false⟩ : RingBuf)).2.valid
          = false ∧
       (moveAssign (setFail false)
          (⟨BufKind.real, #[7, 7], 0, 1, 2, 1, false⟩ : RingBuf)).2.capacity = 0) := by
  decide

/-- C6 (amended): after move construction the source always reports
itself invalid with capacity 0 (a real source loses ownership — its
buffer pointer becomes null); the same holds for move assignment whenever
the destination is valid.  Move assignment into an invalid destination is
a no-op that leaves the source untouched. -/
theorem C6_move_invalidates_source (src dst : RingBuf) (jp : Bool) :
    ((moveCtor src jp).2.valid = false ∧ (moveCtor src jp).2.capacity = 0) ∧
    (dst.valid = true →
      (moveAssign dst src).2.valid = false ∧ (moveAssign dst src).2.capacity = 0) ∧
    (dst.valid = false → moveAssign dst src = (dst, src)) := by
  have hnotreal : ∀ r : RingBuf, r.kind ≠ BufKind.real →
      r.valid = false ∧ r.capacity = 0 := by
    intro r hr
    have hv : r.valid = false := beq_eq_false_iff_ne.mpr hr
    exact ⟨hv, by simp [RingBuf.capacity, hv]⟩
  refine ⟨?_, ?_, ?_⟩
  · unfold moveCtor
    by_cases hr : src.kind = BufKind.real
    · rw [if_pos hr]
      exact hnotreal _ (by simp)
    · rw [if_neg hr]
      exact hnotreal _ hr
  · intro hdv
    unfold moveAssign
    rw [hdv]
    simp only [eq_self_iff_true, if_true]
    by_cases hr : src.kind = BufKind.real
    · rw [if_pos hr]
      rw [show (dst.clear).2 = { dst with bgn := 0, fin := 0 } from by
        simp [RingBuf.clear, hdv]]
      rcases hm : ({ dst with bgn := 0, fin := 0 } : RingBuf).push_back_list src.occupied with
        - | ⟨b, d2⟩
      · show ({ src with kind := BufKind.null } : RingBuf).valid = false ∧
          ({ src with kind := BufKind.null } : RingBuf).capacity = 0
        exact hnotreal _ (by simp)
      · show ({ src with kind := BufKind.null } : RingBuf).valid = false ∧
          ({ src with kind := BufKind.null } : RingBuf).capacity = 0
        exact hnotreal _ (by simp)
    · rw [if_neg hr]
      exact hnotreal _ hr
  · intro hdv
    unfold moveAssign
    rw [hdv]
    rfl

/-! ## Concrete witness states -/

def wB3 : RingBuf := ⟨BufKind.real, #[1, 2, 1, 2], 0, 2, 4, 2, false⟩

def wB4 : RingBuf := ⟨BufKind.real, #[7, 7], 0, 1, 2, 1, true⟩

def wB7 : RingBuf := ⟨BufKind.real, #[4, 5, 6, 0, 4, 5, 6, 0], 0, 3, 8, 4, false⟩

def wSrc5 : RingBuf := ⟨BufKind.real, #[5, 6, 5, 6], 0, 2, 4, 2, false⟩

def wDst5 : RingBuf := ⟨BufKind.real, #[0, 0, 0, 0, 0, 0], 0, 0, 6, 3, true⟩

def wSrc6 : RingBuf := ⟨BufKind.real, #[9, 9], 0, 1, 2, 1, false⟩

def wDst6 : RingBuf := ⟨BufKind.real, #[0, 0], 0, 0, 2, 1, false⟩

/-- Witness for C3: capacity 2, full content [1, 2], push 3 gives [2, 3]. -/
theorem C3_push_full_nonpreserve_evicts_oldest_witness :
    BufInv wB3 ∧ wB3.preserve = false ∧ 0 < wB3.usable ∧ wB3.size = wB3.usable ∧
    ((wB3.push_back 3).map Prod.fst = some true ∧
      (wB3.push_back 3).map (fun r => r.2.size) = some wB3.usable ∧
      (wB3.push_back 3).bind (fun r => r.2.dataSlice) = some (wB3.occupied.drop 1 ++ [3])) :=
  ⟨by decide, by decide, by decide, by decide,
    C3_push_full_nonpreserve_evicts_oldest wB3 3 (by decide) (by decide) (by decide) (by decide)⟩

/-- Witness for C4: capacity 1, preserving, full with [7]: both inserts refused. -/
theorem C4_preserve_full_refusal_witness :
    BufInv wB4 ∧ wB4.preserve = true ∧ wB4.capacity = 0 ∧ wB4.capacity < 2 ∧
    wB4.push_back 9 = some (false, wB4) ∧
    wB4.push_back_list [1, 2] = some (false, wB4) :=
  ⟨by decide, by decide, by decide, by decide,
    (C4_preserve_full_refusal wB4 9 [1, 2] (by decide) (by decide)).1 (by decide),
    (C4_preserve_full_refusal wB4 9 [1, 2] (by decide) (by decide)).2 (by decide)⟩

/-- Witness for C7: capacity 4, content [4, 5, 6], pop 2 leaves [6]. -/
theorem C7_pop_semantics_witness :
    BufInv wB7 ∧ 0 < 2 ∧ 2 < wB7.size ∧
    ((wB7.pop 2).1 = 2 ∧ ((wB7.pop 2).2).size = wB7.size - 2 ∧
      ((wB7.pop 2).2).dataSlice = some (wB7.occupied.drop 2)) :=
  ⟨by decide, by decide, by decide,
    (C7_pop_semantics wB7 2).2.2.2 (by decide) (by decide) (by decide)⟩

/-- Witness for C8: in-range, out-of-range and invalid-buffer reads. -/
theorem C8_indexed_read_witness :
    BufInv wB7 ∧ 1 < wB7.size ∧ wB7.size ≤ 9 ∧ (setFail true).valid = false ∧
    wB7.readIndex 1 = some (wB7.occupied.getD 1 0) ∧
    wB7.readIndex 9 = some 0 ∧
    (setFail true).readIndex 0 = some 0 :=
  ⟨by decide, by decide, by decide, by decide,
    (C8_indexed_read wB7 1).2.1 (by decide) (by decide),
    (C8_indexed_read wB7 9).2.2 (by decide) (by decide),
    (C8_indexed_read (setFail true) 0).1 (by decide)⟩

/-- Witness for C5 (amended): copy construction of [5, 6], and copy
assignment of it into a valid capacity-3 destination. -/
theorem C5_copy_semantics_witness :
    wSrc5.kind = BufKind.real ∧ BufInv wDst5 ∧ BufInv wSrc5 ∧ wSrc5.size ≤ wDst5.usable ∧
    ((copyCtor wSrc5 true false).size = wSrc5.size ∧
      (copyCtor wSrc5 true false).dataSlice = wSrc5.dataSlice) ∧
    ((copyAssign wDst5 wSrc5).size = wSrc5.size ∧
      (copyAssign wDst5 wSrc5).dataSlice = wSrc5.dataSlice) :=
  ⟨by decide, by decide, by decide, by decide,
    (C5_copy_semantics wSrc5 wDst5 false).1 (by decide),
    (C5_copy_semantics wSrc5 wDst5 false).2.2.1 (by decide) (by decide) (by decide)⟩

/-- Witness for C6 (amended): move construction from [9], and move
assignment into a valid destination. -/
theorem C6_move_invalidates_source_witness :
    wDst6.valid = true ∧
    ((moveCtor wSrc6 false).2.valid = false ∧ (moveCtor wSrc6 false).2.capacity = 0) ∧
    ((moveAssign wDst6 wSrc6).2.valid = false ∧ (moveAssign wDst6 wSrc6).2.capacity = 0) :=
  ⟨by decide,
    (C6_move_invalidates_source wSrc6 wDst6 false).1,
    (C6_move_invalidates_source wSrc6 wDst6 false).2.1 (by decide)⟩

/-! ## The step simulation against the abstract FIFO model -/

theorem push_back_usable_zero {rb : RingBuf} (h : BufInv rb) (hu : rb.usable = 0)
    (hp : rb.preserve = false) (c : Nat) : rb.push_back c = none := by
  obtain ⟨hk, hlen, hbufsz, hb0, hbf, hfu, hbu, hmir⟩ := h
  have hbgn : rb.bgn = 0 := by omega
  have hfin : rb.fin = 0 := by omega
  have hv : rb.valid = true := by simp [RingBuf.valid, hk]
  have hcap : (rb.capacity == 0) = true := beq_iff_eq.mpr (by simp [RingBuf.capacity, hv, hu])
  have hbranch : rb.push_back c = (pushWrite (evictOne rb) c).map (fun r => (true, r)) := by
    simp only [RingBuf.push_back, hv, hcap, hp, Bool.not_true, Bool.false_eq_true, if_false,
      if_true]
  have hev : evictOne rb = { rb with bgn := 0, fin := -1 } := by
    unfold evictOne
    rw [if_pos (by omega)]
    have : ((rb.usable : Int) - 1) = -1 := by omega
    rw [this]
  have hpw : pushWrite { rb with bgn := 0, fin := -1 } c = none := by
    have hwr : wr rb.buffer (-1 : Int) c = none := by
      unfold wr
      rw [dif_neg (by omega)]
    unfold pushWrite
    dsimp only
    rw [hwr]
    rfl
  rw [hbranch, hev, hpw]
  rfl

theorem stepC_spec {rb : RingBuf} (h : BufInv rb) (hu16 : rb.usable < 65536) (op : Op) :
    ∀ rb1, stepC rb op = some rb1 →
      BufInv rb1 ∧ rb1.usable = rb.usable ∧ rb1.preserve = rb.preserve ∧
        rb1.occupied = modelStep rb.usable rb.preserve rb.occupied op := by
  have hlen_occ : rb.occupied.length = rb.size := length_occupied rb
  have hcap := capacity_of_inv h
  have hsu := size_le_usable h
  intro rb1 hstep
  cases op with
  | clr =>
    obtain ⟨hceq, hI, hocc⟩ := clear_spec h
    simp only [stepC, hceq] at hstep
    cases hstep
    exact ⟨hI, rfl, rfl, hocc⟩
  | popn n =>
    simp only [stepC] at hstep
    by_cases hs0 : rb.size = 0
    · rw [pop_empty h hs0 n] at hstep
      cases hstep
      have hnil : rb.occupied = [] := List.eq_nil_of_length_eq_zero (by omega)
      refine ⟨h, rfl, rfl, ?_⟩
      simp [modelStep, hnil]
    · by_cases hge : rb.size ≤ n
      · rw [pop_all h hs0 hge] at hstep
        cases hstep
        obtain ⟨-, hI, hocc⟩ := clear_spec h
        refine ⟨hI, rfl, rfl, ?_⟩
        rw [hocc]
        simp only [modelStep]
        rw [List.drop_eq_nil_of_le (by omega)]
      · obtain ⟨rbp, hrun, hI, hu1, hp1, hl1, hb1, hk1, hsz1, hocc1⟩ :=
          pop_lt h (show n < rb.size by omega)
        rw [hrun] at hstep
        cases hstep
        exact ⟨hI, hu1, hp1, hocc1⟩
  | push c =>
    simp only [stepC] at hstep
    by_cases hroom : rb.size < rb.usable
    · obtain ⟨rbp, hrun, hI, hu1, hp1, hl1, hb1, hbg1, hsz1, hocc1⟩ := push_back_fit h hroom c
      rw [hrun] at hstep
      cases hstep
      refine ⟨hI, hu1, hp1, ?_⟩
      rw [hocc1]
      simp only [modelStep]
      rw [if_pos (by omega)]
    · by_cases hp : rb.preserve = true
      · rw [push_back_full_preserve h (by omega) hp c] at hstep
        cases hstep
        refine ⟨h, rfl, rfl, ?_⟩
        simp only [modelStep]
        rw [if_neg (by omega), if_pos hp]
      · have hp2 : rb.preserve = false := by
          revert hp
          cases rb.preserve <;> simp
        by_cases hu0 : rb.usable = 0
        · rw [push_back_usable_zero h hu0 hp2 c] at hstep
          cases hstep
        · obtain ⟨rbp, hrun, hI, hu1, hp1, hl1, hb1, hsz1, hocc1⟩ :=
            push_back_evict h (by omega) hp2 (by omega) c
          rw [hrun] at hstep
          cases hstep
          refine ⟨hI, hu1, hp1, ?_⟩
          rw [hocc1]
          simp only [modelStep]
          rw [if_neg (by omega), if_neg (by rw [hp2]; exact Bool.false_ne_true)]
  | bulk l =>
    simp only [stepC] at hstep
    by_cases hl0 : l.length = 0
    · have hnil : l = [] := List.eq_nil_of_length_eq_zero hl0
      rw [hnil, push_back_list_nil] at hstep
      cases hstep
      refine ⟨h, rfl, rfl, ?_⟩
      rw [hnil]
      simp [modelStep]
    · by_cases hfit : l.length ≤ rb.capacity
      · obtain ⟨rbp, hrun, hI, hu1, hp1, hl1, hb1, hbg1, hsz1, hocc1⟩ :=
          push_back_list_fit h l hl0 hfit (Or.inr (by omega))
        rw [hrun] at hstep
        cases hstep
        refine ⟨hI, hu1, hp1, ?_⟩
        rw [hocc1]
        simp only [modelStep]
        rw [if_neg hl0, if_pos (by omega)]
      · by_cases hp : rb.preserve = true
        · rw [push_back_list_overflow_preserve h l hp (by omega)] at hstep
          cases hstep
          refine ⟨h, rfl, rfl, ?_⟩
          simp only [modelStep]
          rw [if_neg hl0, if_neg (by omega), if_pos hp]
        · have hp2 : rb.preserve = false := by
            revert hp
            cases rb.preserve <;> simp
          obtain ⟨rbp, hrun, hI, hu1, hp1, hl1, hb1, hsz1, hocc1⟩ :=
            push_back_list_overflow_evict h l hp2 (by omega) hu16
          rw [hrun] at hstep
          cases hstep
          refine ⟨hI, hu1, hp1, ?_⟩
          rw [hocc1]
          simp only [modelStep]
          rw [if_neg hl0, if_neg (by omega), if_neg (by rw [hp2]; exact Bool.false_ne_true)]
          show _ = rb.occupied.drop ((clipSrc rb.usable l).length - (rb.usable -
            rb.occupied.length)) ++ clipSrc rb.usable l
          rw [show rb.usable - rb.occupied.length = rb.capacity from by rw [hlen_occ, hcap]]

theorem runC_spec {rb : RingBuf} (ops : List Op) (h : BufInv rb) (hu16 : rb.usable < 65536) :
    (runC rb ops).bind RingBuf.dataSlice =
      (runC rb ops).map (fun _ => modelRun rb.usable rb.preserve rb.occupied ops) := by
  induction ops generalizing rb with
  | nil =>
    simp [runC, dataSlice_of_inv h, modelRun]
  | cons op ops ih =>
    have hrc : runC rb (op :: ops) = (stepC rb op).bind (fun rb1 => runC rb1 ops) := rfl
    cases hstep : stepC rb op with
    | none =>
      rw [hrc, hstep]
      rfl
    | some rb1 =>
      obtain ⟨hI1, hu1, hp1, hocc1⟩ := stepC_spec h hu16 op rb1 hstep
      rw [hrc, hstep, Option.some_bind]
      have hmodel : modelRun rb.usable rb.preserve rb.occupied (op :: ops) =
          modelRun rb1.usable rb1.preserve rb1.occupied ops := by
        simp only [modelRun]
        rw [← hocc1, hu1, hp1]
      rw [hmodel]
      exact ih hI1 (by rw [hu1]; exact hu16)

/-- The central mirrored-buffer property, restricted to requested
capacities below 65536 (beyond that the `uint16_t firstPart` narrowing in
the bulk split copy corrupts the mirror — see the C1/C2 theorems): along
any operation sequence from construction, reading `size()` elements at
`data()` succeeds as one flat in-bounds slice and equals the abstract
FIFO model of the sequence. -/
theorem ringBuf_fifo (sz : Nat) (p : Bool) (junk : Nat → Nat) (ops : List Op)
    (hsz : sz < 65536) :
    (runC (mkRingBuf sz p junk) ops).bind RingBuf.dataSlice =
      (runC (mkRingBuf sz p junk) ops).map (fun _ => modelRun sz p [] ops) := by
  have h0 := mkRingBuf_occupied sz p junk
  have := runC_spec ops (mkRingBuf_inv sz p junk) (by exact hsz)
  rw [this, h0]
  rfl

/-- Round-trip instance of the FIFO property: the specification's mirror
example (capacity 3, push a b c, pop 1, push d reads b c d) from
`ringBuf_fifo`. -/
theorem ringBuf_fifo_example :
    (runC (mkRingBuf 3 false (fun _ => 0))
        [Op.push 10, Op.push 11, Op.push 12, Op.popn 1, Op.push 13]).bind RingBuf.dataSlice =
      some [11, 12, 13] := by
  have h := ringBuf_fifo 3 false (fun _ => 0)
    [Op.push 10, Op.push 11, Op.push 12, Op.popn 1, Op.push 13] (by decide)
  rw [h]
  decide

/-! ## The uint16_t narrowing bug in the split mirror copy

`uint16_t firstPart = len - (end - buffer + usable)` truncates the split
point modulo 65536.  When the true first part is exactly 65536 the
computed `firstPart` is 0 and the entire mirror copy lands at the start
of the buffer, overwriting the freshly written occupied region. -/

theorem bulkWrite_fp0 (rb : RingBuf) (src : List Nat) (hb0 : 0 ≤ rb.bgn)
    (hbf : rb.bgn ≤ rb.fin) (hbufsz : rb.buffer.size = rb.len)
    (hbound : rb.fin.toNat + src.length ≤ rb.buffer.size)
    (hk : src.length ≤ rb.buffer.size)
    (hcA : ¬ (rb.usable : Int) ≤ rb.fin)
    (hcB : ¬ (rb.fin + (rb.usable : Int) + src.length ≤ (rb.len : Int)))
    (hfp : firstPartOf rb.len rb.fin.toNat rb.usable = 0) :
    ∃ a2, bulkWrite rb src = some { rb with buffer := a2, fin := rb.fin + src.length } ∧
      a2.size = rb.buffer.size ∧
      ∀ x : Nat, aread a2 x =
        if x < src.length then src.getD x 0
        else if rb.fin.toNat ≤ x ∧ x < rb.fin.toNat + src.length then
          src.getD (x - rb.fin.toNat) 0
        else aread rb.buffer x := by
  have hf0 : 0 ≤ rb.fin := le_trans hb0 hbf
  obtain ⟨a1, hw1, hs1, hv1⟩ := wrList_spec src rb.buffer rb.fin hf0 (by omega)
  obtain ⟨a2, hw2, hs2, hv2⟩ := wrList_spec src a1 0 (by omega) (by rw [hs1]; omega)
  refine ⟨a2, ?_, by rw [hs2, hs1], ?_⟩
  · simp [bulkWrite, wrList, hw1, hw2, hfp, if_neg hcA, if_neg hcB]
  · intro x
    rw [hv2 x, hv1 x]
    by_cases h1 : x < src.length
    · rw [if_pos (by omega), if_pos h1]
      simp
    · rw [if_neg (by omega), if_neg h1]

theorem getD_range {n i : Nat} (h : i < n) : (List.range n).getD i 0 = i := by
  rw [List.getD_eq_getElem _ _ (by simpa using h)]
  simp

/-- The concrete state for the C2 refutation: a valid empty buffer of
requested capacity 65537 whose cursors sit at offset 1. -/
def rbC2 : RingBuf :=
  ⟨BufKind.real, mkBuf 131074 (fun _ => 0), 1, 1, 131074, 65537, false⟩

theorem mkBuf_size (n : Nat) (junk : Nat → Nat) : (mkBuf n junk).size = n := by
  simp [mkBuf]

theorem rbC2_buffer_size : rbC2.buffer.size = 131074 := by
  show (mkBuf 131074 (fun _ => 0)).size = 131074
  exact mkBuf_size 131074 (fun _ => 0)

theorem rbC2_inv : BufInv rbC2 := by
  refine ⟨rfl, by decide, ?_, by decide, by decide, by decide, by decide, ?_⟩
  · rw [rbC2_buffer_size]
    rfl
  · intro j hj
    rw [show rbC2.size = 0 from rfl] at hj
    omega

/-- C2: at `usable = 65537` the `uint16_t` narrowing of `firstPart`
(65536 % 65536 = 0) sends the whole wrapped mirror copy to the start of
the buffer, overwriting the freshly copied occupied region: bulk-pushing
`range 65538` (k = 65538 > usable) into the valid, empty, non-preserving
buffer `rbC2` succeeds, but the resulting content is NOT the last
`usable` elements of the source — `data()[0]` reads source[2] where the
claim demands source[1]. -/
theorem C2_bulk_clip_truncated_mirror :
    BufInv rbC2 ∧ rbC2.preserve = false ∧
    rbC2.usable < (List.range 65538).length ∧
    ¬ ((rbC2.push_back_list (List.range 65538)).bind (fun r => r.2.dataSlice) =
        some ((List.range 65538).drop ((List.range 65538).length - rbC2.usable))) := by
  refine ⟨rbC2_inv, rfl, ?_, ?_⟩
  · rw [List.length_range]
    decide
  · have hs2len : ((List.range 65538).drop 1).length = 65537 := by
      rw [List.length_drop, List.length_range]
    have h1 : (!rbC2.valid) = false := rfl
    have hlr : (List.range 65538).length = 65538 := List.length_range ..
    have hne : ((List.range 65538).length == 0) = false := by rw [hlr]; rfl
    have hkc : rbC2.capacity < (List.range 65538).length := by rw [hlr]; decide
    have hpneg : ¬ rbC2.preserve = true := by decide
    have hclip : rbC2.usable < (List.range 65538).length := by rw [hlr]; decide
    have hstep : rbC2.push_back_list (List.range 65538) =
        (bulkWrite rbC2 ((List.range 65538).drop 1)).map (fun r => (true, r)) := by
      simp only [RingBuf.push_back_list, h1, hne, Bool.false_eq_true, if_false, if_pos hkc,
        if_neg hpneg, if_pos hclip]
      rw [hlr, show (65538 : Nat) - rbC2.usable = 1 from by decide]
      rw [hs2len, show (65537 : Nat) - rbC2.capacity = 0 from by decide]
      rw [if_neg (by decide : ¬ ((rbC2.usable : Int) ≤ rbC2.bgn + ((0 : Nat) : Int)))]
      rw [show rbC2.bgn + ((0 : Nat) : Int) = rbC2.bgn from by decide]
    obtain ⟨a2, hbw, hsz2, hv⟩ := bulkWrite_fp0 rbC2 ((List.range 65538).drop 1)
      (by decide) (by decide) (by rw [rbC2_buffer_size]; rfl)
      (by rw [rbC2_buffer_size, hs2len]; decide)
      (by rw [rbC2_buffer_size, hs2len]; decide)
      (by decide)
      (by rw [hs2len]; decide)
      (by decide)
    intro hcl
    rw [hstep, hbw] at hcl
    rw [Option.map_some', Option.some_bind] at hcl
    rw [hs2len] at hcl
    have hds : ({ rbC2 with buffer := a2,
                            fin := rbC2.fin + ((65537 : Nat) : Int) } : RingBuf).dataSlice =
        some ((List.range 65537).map (fun j => aread a2 ((1 : Int).toNat + j))) := by
      show rdList a2 1 65537 = _
      exact rdList_spec 65537 a2 1 (by decide) (by rw [hsz2, rbC2_buffer_size]; decide)
    rw [hds, Option.some.injEq] at hcl
    have hread : aread a2 ((1 : Int).toNat + 0) = 2 := by
      rw [show (1 : Int).toNat + 0 = 1 from rfl, hv 1, if_pos (by rw [hs2len]; decide)]
      rw [getD_drop_all, getD_range (by decide)]
    have hgetD : ((List.range 65537).map (fun j => aread a2 ((1 : Int).toNat + j))).getD 0 0 =
        aread a2 ((1 : Int).toNat + 0) := getD_range_map _ (by decide)
    have hclaimhead : ((List.range 65538).drop
        ((List.range 65538).length - rbC2.usable)).getD 0 0 = 1 := by
      rw [List.length_range, show (65538 : Nat) - rbC2.usable = 1 from by decide]
      rw [getD_drop_all, getD_range (by decide)]
    have h0 := congrArg (fun l : List Nat => l.getD 0 0) hcl
    simp only at h0
    rw [hgetD, hread, hclaimhead] at h0
    exact absurd h0 (by decide)

theorem snd_pair (b : Bool) (r : RingBuf) : (b, r).2 = r := rfl

theorem modelStep_bulk_evict (u : Nat) (s l : List Nat) (hne : ¬ l.length = 0)
    (hbig : ¬ l.length ≤ u - s.length) (hnoclip : ¬ u < l.length) :
    modelStep u false s (Op.bulk l) = s.drop (l.length - (u - s.length)) ++ l := by
  simp only [modelStep]
  rw [if_neg hne, if_neg hbig, if_neg (show ¬ false = true by decide), if_neg hnoclip]

/-- The non-preserving overflow branch of the bulk push when the source
is not clipped and the eviction does not wrap `begin`. -/
theorem push_back_list_evict_step {rb : RingBuf} {src : List Nat} {d : Int}
    (hval : (!rb.valid) = false) (hne : (src.length == 0) = false)
    (hkc : rb.capacity < src.length) (hpneg : ¬ rb.preserve = true)
    (hnoclip : ¬ rb.usable < src.length)
    (hd : rb.bgn + ((src.length - rb.capacity : Nat) : Int) = d)
    (hnw : ¬ (rb.usable : Int) ≤ d) :
    rb.push_back_list src = (bulkWrite { rb with bgn := d } src).map (fun r => (true, r)) := by
  simp only [RingBuf.push_back_list, hval, hne, Bool.false_eq_true, if_false,
    if_pos hkc, if_neg hpneg, if_neg hnoclip, hd, if_neg hnw]

/-- The state after `push_back(9)` on an empty non-preserving buffer of
requested capacity 65537 (the array holds the written values). -/
def rb1C (a : Array Nat) : RingBuf := ⟨BufKind.real, a, 0, 1, 131074, 65537, false⟩

/-- The same state after the bulk push's one-element eviction advanced
`begin` to offset 1. -/
def rb2C (a : Array Nat) : RingBuf := ⟨BufKind.real, a, 1, 1, 131074, 65537, false⟩


/-- C1: the flat `data()[0 .. size())` read does NOT match FIFO push order
on every reachable state.  At `usable = 65537` the `uint16_t` narrowing of
`firstPart` (65536 % 65536 = 0) sends the whole wrapped mirror copy of a
bulk push to the start of the buffer, overwriting the freshly written
occupied region: after `push_back(9)` followed by a bulk
`push_back(range 65537, 65537)` on an empty non-preserving buffer of
capacity 65537, `data()[0]` reads 1 where FIFO order demands 0. -/
theorem C1_mirror_truncation :
    ¬ ((runC (mkRingBuf 65537 false (fun _ => 0)) [Op.push 9, Op.bulk (List.range 65537)]).bind
          RingBuf.dataSlice =
        (runC (mkRingBuf 65537 false (fun _ => 0)) [Op.push 9, Op.bulk (List.range 65537)]).map
          (fun _ => modelRun 65537 false [] [Op.push 9, Op.bulk (List.range 65537)])) := by
  have hbsz : (mkRingBuf 65537 false (fun _ => 0)).buffer.size = 131074 := by
    show (mkBuf (65537 * 2) (fun _ => 0)).size = 131074
    rw [mkBuf_size]
  obtain ⟨a1, hw1⟩ : ∃ a1, wr (mkRingBuf 65537 false (fun _ => 0)).buffer
      (mkRingBuf 65537 false (fun _ => 0)).fin 9 = some a1 :=
    ⟨_, wr_some (by decide) (by rw [hbsz]; decide)⟩
  have ha1sz : a1.size = 131074 := (wr_size hw1).trans hbsz
  have hfc : ¬ ((mkRingBuf 65537 false (fun _ => 0)).usable : Int) ≤
      (mkRingBuf 65537 false (fun _ => 0)).fin := by decide
  obtain ⟨a2, hw2⟩ : ∃ a2, wr a1 ((mkRingBuf 65537 false (fun _ => 0)).fin +
      ((mkRingBuf 65537 false (fun _ => 0)).usable : Int)) 9 = some a2 :=
    ⟨_, wr_some (by decide) (by rw [ha1sz]; decide)⟩
  have ha2sz : a2.size = 131074 := (wr_size hw2).trans ha1sz
  have hpw0 : pushWrite (mkRingBuf 65537 false (fun _ => 0)) 9 =
      some { mkRingBuf 65537 false (fun _ => 0) with
             buffer := a2, fin := (mkRingBuf 65537 false (fun _ => 0)).fin + 1 } := by
    simp [pushWrite, hw1, Option.some_bind, if_neg hfc, hw2]
  have hpw : pushWrite (mkRingBuf 65537 false (fun _ => 0)) 9 = some (rb1C a2) := by
    rw [hpw0]
    rfl
  have hval0 : (!(mkRingBuf 65537 false (fun _ => 0)).valid) = false := rfl
  have hcap0 : ((mkRingBuf 65537 false (fun _ => 0)).capacity == 0) = false := by decide
  have hpb : (mkRingBuf 65537 false (fun _ => 0)).push_back 9 = some (true, rb1C a2) := by
    simp only [RingBuf.push_back, hval0, Bool.false_eq_true, if_false, hcap0, hpw,
      Option.map_some']
  have hval1 : (!(rb1C a2).valid) = false := rfl
  have hne : ((List.range 65537).length == 0) = false := by rw [List.length_range]; rfl
  have hkc : (rb1C a2).capacity < (List.range 65537).length := by
    show (65536 : Nat) < (List.range 65537).length
    rw [List.length_range]
    decide
  have hpneg : ¬ (rb1C a2).preserve = true := by
    show ¬ false = true
    decide
  have hnoclip : ¬ (rb1C a2).usable < (List.range 65537).length := by
    show ¬ (65537 : Nat) < (List.range 65537).length
    rw [List.length_range]
    decide
  have hstep2 : (rb1C a2).push_back_list (List.range 65537) =
      (bulkWrite { rb1C a2 with bgn := (1 : Int) } (List.range 65537)).map
        (fun r => (true, r)) :=
    push_back_list_evict_step hval1 hne hkc hpneg hnoclip
      (by rw [List.length_range, show (rb1C a2).capacity = 65536 from rfl,
            show (rb1C a2).bgn = (0 : Int) from rfl,
            show ((65537 : Nat) - 65536 : Nat) = 1 from by decide]
          decide)
      (by show ¬ ((65537 : Nat) : Int) ≤ (1 : Int); decide)
  have hstep2b : ({ rb1C a2 with bgn := (1 : Int) } : RingBuf) = rb2C a2 := rfl
  obtain ⟨a3, hbw, hsz3, hv3⟩ := bulkWrite_fp0 (rb2C a2) (List.range 65537)
    (by show (0 : Int) ≤ (1 : Int); decide)
    (by show (1 : Int) ≤ (1 : Int); decide)
    (by show a2.size = (rb2C a2).len; rw [ha2sz]; rfl)
    (by show (1 : Int).toNat + (List.range 65537).length ≤ a2.size
        rw [show ((1 : Int).toNat) = 1 from rfl, List.length_range, ha2sz]; decide)
    (by show (List.range 65537).length ≤ a2.size
        rw [List.length_range, ha2sz]; decide)
    (by show ¬ ((65537 : Nat) : Int) ≤ (1 : Int); decide)
    (by show ¬ ((1 : Int) + ((65537 : Nat) : Int) + (((List.range 65537).length : Nat) : Int) ≤
          ((131074 : Nat) : Int))
        rw [List.length_range]; decide)
    (by show firstPartOf 131074 ((1 : Int).toNat) 65537 = 0
        rw [show ((1 : Int).toNat) = 1 from rfl]; decide)
  have ha3sz : a3.size = 131074 := hsz3.trans ha2sz
  have hds : ({ rb2C a2 with buffer := a3,
                              fin := (rb2C a2).fin + ((65537 : Nat) : Int) } : RingBuf).dataSlice =
      some ((List.range 65537).map (fun j => aread a3 ((1 : Int).toNat + j))) := by
    show rdList a3 1 65537 = _
    exact rdList_spec 65537 a3 1 (by decide) (by rw [ha3sz]; decide)
  have hread : aread a3 ((1 : Int).toNat + 0) = 1 := by
    rw [show (1 : Int).toNat + 0 = 1 from rfl, hv3 1,
      if_pos (by rw [List.length_range]; decide)]
    exact getD_range (show (1 : Nat) < 65537 by decide)
  have hm1 : modelStep 65537 false [] (Op.push 9) = [9] := rfl
  have hm2 : modelStep 65537 false [9] (Op.bulk (List.range 65537)) = List.range 65537 := by
    rw [modelStep_bulk_evict 65537 [9] (List.range 65537)
      (by rw [List.length_range]; decide)
      (by rw [List.length_range]; decide)
      (by rw [List.length_range]; decide)]
    rw [List.length_range, show (65537 : Nat) - (65537 - [(9 : Nat)].length) = 1 from by decide]
    rw [show ([(9 : Nat)].drop 1) = ([] : List Nat) from rfl, List.nil_append]
  have hmodel : modelRun 65537 false [] [Op.push 9, Op.bulk (List.range 65537)] =
      List.range 65537 := by
    simp only [modelRun]
    rw [hm1]
    exact hm2
  have hrc : runC (mkRingBuf 65537 false (fun _ => 0)) [Op.push 9, Op.bulk (List.range 65537)] =
      some { rb2C a2 with buffer := a3,
                          fin := (rb2C a2).fin + ((List.range 65537).length : Int) } := by
    rw [show runC (mkRingBuf 65537 false (fun _ => 0)) [Op.push 9, Op.bulk (List.range 65537)] =
        (stepC (mkRingBuf 65537 false (fun _ => 0)) (Op.push 9)).bind
          (fun x => runC x [Op.bulk (List.range 65537)]) from rfl]
    rw [show stepC (mkRingBuf 65537 false (fun _ => 0)) (Op.push 9) =
        ((mkRingBuf 65537 false (fun _ => 0)).push_back 9).map Prod.snd from rfl]
    rw [hpb, Option.map_some', snd_pair, Option.some_bind]
    rw [show runC (rb1C a2) [Op.bulk (List.range 65537)] =
        (stepC (rb1C a2) (Op.bulk (List.range 65537))).bind (fun x => runC x []) from rfl]
    rw [show stepC (rb1C a2) (Op.bulk (List.range 65537)) =
        ((rb1C a2).push_back_list (List.range 65537)).map Prod.snd from rfl]
    rw [hstep2, hstep2b, hbw, Option.map_some', Option.map_some', snd_pair, Option.some_bind]
    rfl
  intro hcl
  rw [hrc, Option.some_bind, Option.map_some'] at hcl
  rw [show (List.range 65537).length = 65537 from List.length_range ..] at hcl
  rw [hds, hmodel, Option.some.injEq] at hcl
  have h0 := congrArg (fun l : List Nat => l.getD 0 0) hcl
  simp only at h0
  rw [getD_range_map (fun j => aread a3 ((1 : Int).toNat + j))
      (show (0 : Nat) < 65537 by decide),
    hread, getD_range (show (0 : Nat) < 65537 by decide)] at h0
  exact absurd h0 (by decide)
